import Mathlib

/-!
Verification of the chmod mode-string parser (`src/tree/src/modestr.rs`).

The parser first attempts to read the whole input as an octal `u32`
(`u32::from_str_radix(mode, 8)`); on failure it runs a six-state character
machine over the input, where a single character may be re-dispatched
against several successive states before being consumed.

The embedding below mirrors the Rust source:
* `ChmodAction`, `ChmodClause`, `ChmodSymbolic`, `ChmodMode` are the data
  model (including the private `dirty` bookkeeping fields);
* `fromStrRadix8` models `u32::from_str_radix(mode, 8)` (optional leading
  `'+'` sign, per-step overflow check against `u32::MAX`);
* `loopStep` is one iteration of the inner `while !done_with_char` loop;
* `redispatch` iterates `loopStep` with explicit fuel (the re-dispatch
  loop); `procChar` processes one input character to completion;
* `scan` is the outer `for c in mode.chars()` loop;
* `finalize` is the end-of-input commit of the pending action and clause;
* `parse` is the entry point.
-/

namespace Modestr

inductive ChmodActionOp where
  | Add
  | Remove
  | Set
deriving DecidableEq, Repr

structure ChmodAction where
  op : ChmodActionOp
  copy_user : Bool
  copy_group : Bool
  copy_others : Bool
  read : Bool
  write : Bool
  execute : Bool
  execute_dir : Bool
  setuid : Bool
  sticky : Bool
  dirty : Bool
deriving DecidableEq, Repr

def ChmodAction.new : ChmodAction :=
  { op := ChmodActionOp.Set
    copy_user := false
    copy_group := false
    copy_others := false
    read := false
    write := false
    execute := false
    execute_dir := false
    setuid := false
    sticky := false
    dirty := false }

structure ChmodClause where
  user : Bool
  group : Bool
  others : Bool
  actions : List ChmodAction
  dirty : Bool
deriving DecidableEq, Repr

def ChmodClause.new : ChmodClause :=
  { user := false
    group := false
    others := false
    actions := []
    dirty := false }

structure ChmodSymbolic where
  clauses : List ChmodClause
deriving DecidableEq, Repr

def ChmodSymbolic.new : ChmodSymbolic := { clauses := [] }

inductive ChmodMode where
  | Absolute (v : Nat)
  | Symbolic (s : ChmodSymbolic)
deriving DecidableEq, Repr

inductive ParseState where
  | Wholist
  | Actionlist
  | ListOrCopy
  | PermCopy
  | PermList
  | NextClause
deriving DecidableEq, Repr

/-! ### Octal (absolute-mode) attempt: `u32::from_str_radix(mode, 8)`

Rust's `from_str_radix` on an unsigned type accepts an optional leading
`'+'` sign (a lone `"+"` or an empty string is an error, and `'-'` is not
accepted as a sign for `u32`, so it fails as a non-digit), then folds the
octal digits left to right, failing on a non-digit or when an intermediate
accumulator step would exceed `u32::MAX`.
-/

def isOctal (c : Char) : Bool := '0' ≤ c && c ≤ '7'

def octDigitVal (c : Char) : Nat := c.toNat - 48

/-- One fold step of the numeral's value, without the overflow check. -/
def octStep (a : Nat) (c : Char) : Nat := a * 8 + octDigitVal c

/-- The checked left-to-right digit fold of `from_str_radix` (radix 8). -/
def octFold : Nat → List Char → Option Nat
  | a, [] => some a
  | a, c :: cs =>
    if isOctal c then
      if octStep a c < 4294967296 then octFold (octStep a c) cs else none
    else none

/-- Model of `u32::from_str_radix(s, 8)`: `none` is `Err(_)`. -/
def fromStrRadix8 (s : String) : Option Nat :=
  match s.data with
  | [] => none
  | c :: rest =>
    if c = '+' then
      if rest = [] then none else octFold 0 rest
    else octFold 0 (c :: rest)

/-- The digit characters examined by `fromStrRadix8`: the input characters
with one leading `'+'` sign stripped when present. -/
def stripPlus (l : List Char) : List Char :=
  match l with
  | [] => []
  | c :: rest => if c = '+' then rest else c :: rest

/-- The base-8 value of a digit string (ignoring overflow). -/
def octValList (l : List Char) : Nat := l.foldl octStep 0

/-! ### The symbolic-grammar state machine -/

/-- The full mutable state of the scan loop in `parse`: the current
`ParseState` together with the specification, clause and action being
built. -/
structure ScanSt where
  state : ParseState
  symbolic : ChmodSymbolic
  clause : ChmodClause
  action : ChmodAction
deriving DecidableEq, Repr

def initSt : ScanSt :=
  { state := ParseState.Wholist
    symbolic := ChmodSymbolic.new
    clause := ChmodClause.new
    action := ChmodAction.new }

/-- One iteration of the inner `while !done_with_char` loop of `parse`.
`Sum.inl S` means the character was not consumed (`done_with_char`
still false): the same character is re-dispatched against the updated
state `S`.  `Sum.inr r` means the iteration finished with the character
consumed (`Except.ok`) or the parse failed (`Except.error`). -/
def loopStep (S : ScanSt) (c : Char) : Sum ScanSt (Except String ScanSt) :=
  match S.state with
  | ParseState.Wholist =>
    let cl := { S.clause with dirty := true }
    if c = 'u' then Sum.inr (Except.ok { S with clause := { cl with user := true } })
    else if c = 'g' then Sum.inr (Except.ok { S with clause := { cl with group := true } })
    else if c = 'o' then Sum.inr (Except.ok { S with clause := { cl with others := true } })
    else if c = 'a' then
      Sum.inr (Except.ok
        { S with clause := { cl with user := true, group := true, others := true } })
    else
      Sum.inl { S with state := ParseState.Actionlist, clause := { cl with dirty := false } }
  | ParseState.Actionlist =>
    let a := { S.action with dirty := true }
    if c = '+' then
      Sum.inr (Except.ok
        { S with state := ParseState.ListOrCopy, action := { a with op := ChmodActionOp.Add } })
    else if c = '-' then
      Sum.inr (Except.ok
        { S with state := ParseState.ListOrCopy, action := { a with op := ChmodActionOp.Remove } })
    else if c = '=' then
      Sum.inr (Except.ok
        { S with state := ParseState.ListOrCopy, action := { a with op := ChmodActionOp.Set } })
    else
      Sum.inl
        { S with
          state := ParseState.NextClause
          action := { a with dirty := false }
          symbolic := { clauses := S.symbolic.clauses ++ [S.clause] }
          clause := ChmodClause.new }
  | ParseState.ListOrCopy =>
    if c = 'u' ∨ c = 'g' ∨ c = 'o' then Sum.inl { S with state := ParseState.PermCopy }
    else Sum.inl { S with state := ParseState.PermList }
  | ParseState.PermCopy =>
    if c = 'u' then Sum.inr (Except.ok { S with action := { S.action with copy_user := true } })
    else if c = 'g' then
      Sum.inr (Except.ok { S with action := { S.action with copy_group := true } })
    else if c = 'o' then
      Sum.inr (Except.ok { S with action := { S.action with copy_others := true } })
    else
      Sum.inl
        { S with
          state := ParseState.Actionlist
          clause :=
            { S.clause with actions := S.clause.actions ++ [S.action], dirty := true }
          action := ChmodAction.new }
  | ParseState.PermList =>
    if c = 'r' then Sum.inr (Except.ok { S with action := { S.action with read := true } })
    else if c = 'w' then
      Sum.inr (Except.ok { S with action := { S.action with write := true } })
    else if c = 'x' then
      Sum.inr (Except.ok { S with action := { S.action with execute := true } })
    else if c = 'X' then
      Sum.inr (Except.ok { S with action := { S.action with execute_dir := true } })
    else if c = 's' then
      Sum.inr (Except.ok { S with action := { S.action with setuid := true } })
    else if c = 't' then
      Sum.inr (Except.ok { S with action := { S.action with sticky := true } })
    else
      Sum.inl
        { S with
          state := ParseState.Actionlist
          clause :=
            { S.clause with actions := S.clause.actions ++ [S.action], dirty := true }
          action := ChmodAction.new }
  | ParseState.NextClause =>
    if c = ',' then Sum.inr (Except.ok { S with state := ParseState.Wholist })
    else Sum.inr (Except.error ("unexpected character: ".push c))

/-- The inner `while !done_with_char` loop, iterated with explicit fuel.
`none` means the fuel ran out before the character was consumed (shown
impossible for fuel 4 in `redispatch_four_isSome`). -/
def redispatch : Nat → ScanSt → Char → Option (Except String ScanSt)
  | 0, _, _ => none
  | n + 1, S, c =>
    match loopStep S c with
    | Sum.inr r => some r
    | Sum.inl S' => redispatch n S' c

/-- Number of re-dispatches a state can still cause before the inner loop
must exit; strictly decreases along every `Sum.inl` step of `loopStep`. -/
def stateRank : ParseState → Nat
  | ParseState.NextClause => 0
  | ParseState.Actionlist => 1
  | ParseState.Wholist => 2
  | ParseState.PermCopy => 2
  | ParseState.PermList => 2
  | ParseState.ListOrCopy => 3

/-- Process one character to completion (the whole inner loop).  Fuel 4 is
enough from every state, so the default branch is unreachable (see
`procChar_eq_redispatch` and `redispatch_four_isSome`). -/
def procChar (S : ScanSt) (c : Char) : Except String ScanSt :=
  (redispatch 4 S c).getD (Except.error "")

/-- The outer `for c in mode.chars()` loop of `parse`. -/
def scan : ScanSt → List Char → Except String ScanSt
  | S, [] => Except.ok S
  | S, c :: cs =>
    match procChar S c with
    | Except.error e => Except.error e
    | Except.ok S' => scan S' cs

/-- End-of-input finalization of `parse`: commit a dirty pending action
into the clause, then a dirty pending clause into the specification. -/
def finalize (S : ScanSt) : ChmodSymbolic :=
  let cl :=
    if S.action.dirty then
      { S.clause with actions := S.clause.actions ++ [S.action], dirty := true }
    else S.clause
  if cl.dirty then { clauses := S.symbolic.clauses ++ [cl] } else S.symbolic

/-- The symbolic-grammar part of `parse` (everything after the octal
attempt has failed). -/
def symbolicParse (mode : String) : Except String ChmodMode :=
  match scan initSt mode.data with
  | Except.error e => Except.error e
  | Except.ok S => Except.ok (ChmodMode.Symbolic (finalize S))

/-- Model of `parse` in `modestr.rs`. -/
def parse (mode : String) : Except String ChmodMode :=
  match fromStrRadix8 mode with
  | some m => Except.ok (ChmodMode.Absolute m)
  | none => symbolicParse mode

/-! ### Derived predicates used in the statements -/

/-- The action names at least one copy-source subject class. -/
def hasCopy (a : ChmodAction) : Bool := a.copy_user || a.copy_group || a.copy_others

/-- The action names at least one literal permission flag. -/
def hasLit (a : ChmodAction) : Bool :=
  a.read || a.write || a.execute || a.execute_dir || a.setuid || a.sticky

/-- The input character that selects a given operator. -/
def opChar : ChmodActionOp → Char
  | ChmodActionOp.Add => '+'
  | ChmodActionOp.Remove => '-'
  | ChmodActionOp.Set => '='

/-- The clause records at least one subject flag or one action. -/
def clauseNonTrivial (cl : ChmodClause) : Prop :=
  cl.user = true ∨ cl.group = true ∨ cl.others = true ∨ cl.actions ≠ []

/-- The character list is nonempty and its last character is not a comma,
i.e. its last top-level comma-separated segment is nonempty. -/
def endsNonComma (p : List Char) : Prop := p ≠ [] ∧ p.getLast? ≠ some ','

instance endsNonCommaDec (p : List Char) : Decidable (endsNonComma p) :=
  inferInstanceAs (Decidable (p ≠ [] ∧ p.getLast? ≠ some ','))

/-- Subject characters (`u`/`g`/`o`/`a`) and action characters (operators
and permission letters). -/
def isSubjAct (c : Char) : Bool :=
  c = 'u' || c = 'g' || c = 'o' || c = 'a' || c = '+' || c = '-' || c = '=' ||
  c = 'r' || c = 'w' || c = 'x' || c = 'X' || c = 's' || c = 't'

/-- The top-level comma-separated segments of a character list; there is
always one more segment than there are commas. -/
def segs : List Char → List (List Char)
  | [] => [[]]
  | c :: cs => if c = ',' then [] :: segs cs else (c :: (segs cs).headD []) :: (segs cs).tail

/-- The inputs accepted by the absolute-mode (octal) attempt: after
stripping one optional leading `'+'`, a nonempty string of octal digits
whose base-8 value fits in 32 bits. -/
def okOctalStr (m : String) : Prop :=
  stripPlus m.data ≠ [] ∧ (∀ c ∈ stripPlus m.data, isOctal c = true) ∧
    octValList (stripPlus m.data) < 4294967296

/-- A committed action is well formed relative to the consumed prefix `p`:
it never mixes copy flags with literal permission flags, and its operator
was selected by a character occurring in `p`. -/
def goodAction (p : List Char) (a : ChmodAction) : Prop :=
  ¬(hasCopy a = true ∧ hasLit a = true) ∧ opChar a.op ∈ p

/-- The scan invariant, relating the machine state reached on the success
path to the prefix `p` of consumed characters.  It holds between any two
genuine character consumptions (never mid-re-dispatch). -/
structure Inv (p : List Char) (S : ScanSt) : Prop where
  boundary : S.state = ParseState.Wholist ∨ S.state = ParseState.ListOrCopy ∨
    S.state = ParseState.PermCopy ∨ S.state = ParseState.PermList
  countComma : S.symbolic.clauses.length = p.count ','
  dirtySeg : (S.action.dirty = true ∨ S.clause.dirty = true) ↔ endsNonComma p
  freshW : S.state = ParseState.Wholist → S.action = ChmodAction.new
  dirtyNW : S.state ≠ ParseState.Wholist → S.action.dirty = true
  flagsLC : S.state = ParseState.ListOrCopy → hasCopy S.action = false ∧ hasLit S.action = false
  litPC : S.state = ParseState.PermCopy → hasLit S.action = false
  copyPL : S.state = ParseState.PermList → hasCopy S.action = false
  opCur : S.action.dirty = true → opChar S.action.op ∈ p
  commSym : ∀ cl ∈ S.symbolic.clauses, ∀ a ∈ cl.actions, goodAction p a
  commCl : ∀ a ∈ S.clause.actions, goodAction p a
  clDirty : S.clause.dirty = true → clauseNonTrivial S.clause

/-! ### Characterization of one full character step -/

theorem procChar_Wholist (sy : ChmodSymbolic) (cl : ChmodClause) (ac : ChmodAction) (c : Char) :
    procChar ⟨ParseState.Wholist, sy, cl, ac⟩ c =
      if c = 'u' then
        Except.ok ⟨ParseState.Wholist, sy, { cl with user := true, dirty := true }, ac⟩
      else if c = 'g' then
        Except.ok ⟨ParseState.Wholist, sy, { cl with group := true, dirty := true }, ac⟩
      else if c = 'o' then
        Except.ok ⟨ParseState.Wholist, sy, { cl with others := true, dirty := true }, ac⟩
      else if c = 'a' then
        Except.ok ⟨ParseState.Wholist, sy,
          { cl with user := true, group := true, others := true, dirty := true }, ac⟩
      else if c = '+' then
        Except.ok ⟨ParseState.ListOrCopy, sy, { cl with dirty := false },
          { ac with op := ChmodActionOp.Add, dirty := true }⟩
      else if c = '-' then
        Except.ok ⟨ParseState.ListOrCopy, sy, { cl with dirty := false },
          { ac with op := ChmodActionOp.Remove, dirty := true }⟩
      else if c = '=' then
        Except.ok ⟨ParseState.ListOrCopy, sy, { cl with dirty := false },
          { ac with op := ChmodActionOp.Set, dirty := true }⟩
      else if c = ',' then
        Except.ok ⟨ParseState.Wholist, ⟨sy.clauses ++ [{ cl with dirty := false }]⟩,
          ChmodClause.new, { ac with dirty := false }⟩
      else Except.error ("unexpected character: ".push c) := by
  by_cases h1 : c = 'u'
  · subst h1; rfl
  by_cases h2 : c = 'g'
  · subst h2; rfl
  by_cases h3 : c = 'o'
  · subst h3; rfl
  by_cases h4 : c = 'a'
  · subst h4; rfl
  by_cases h5 : c = '+'
  · subst h5; rfl
  by_cases h6 : c = '-'
  · subst h6; rfl
  by_cases h7 : c = '='
  · subst h7; rfl
  by_cases h8 : c = ','
  · subst h8; rfl
  simp only [procChar, redispatch, loopStep, if_neg h1, if_neg h2, if_neg h3, if_neg h4,
    if_neg h5, if_neg h6, if_neg h7, if_neg h8, Option.getD]

theorem procChar_ListOrCopy (sy : ChmodSymbolic) (cl : ChmodClause) (ac : ChmodAction)
    (c : Char) :
    procChar ⟨ParseState.ListOrCopy, sy, cl, ac⟩ c =
      if c = 'u' then
        Except.ok ⟨ParseState.PermCopy, sy, cl, { ac with copy_user := true }⟩
      else if c = 'g' then
        Except.ok ⟨ParseState.PermCopy, sy, cl, { ac with copy_group := true }⟩
      else if c = 'o' then
        Except.ok ⟨ParseState.PermCopy, sy, cl, { ac with copy_others := true }⟩
      else if c = 'r' then
        Except.ok ⟨ParseState.PermList, sy, cl, { ac with read := true }⟩
      else if c = 'w' then
        Except.ok ⟨ParseState.PermList, sy, cl, { ac with write := true }⟩
      else if c = 'x' then
        Except.ok ⟨ParseState.PermList, sy, cl, { ac with execute := true }⟩
      else if c = 'X' then
        Except.ok ⟨ParseState.PermList, sy, cl, { ac with execute_dir := true }⟩
      else if c = 's' then
        Except.ok ⟨ParseState.PermList, sy, cl, { ac with setuid := true }⟩
      else if c = 't' then
        Except.ok ⟨ParseState.PermList, sy, cl, { ac with sticky := true }⟩
      else if c = '+' then
        Except.ok ⟨ParseState.ListOrCopy, sy,
          { cl with actions := cl.actions ++ [ac], dirty := true },
          { ChmodAction.new with op := ChmodActionOp.Add, dirty := true }⟩
      else if c = '-' then
        Except.ok ⟨ParseState.ListOrCopy, sy,
          { cl with actions := cl.actions ++ [ac], dirty := true },
          { ChmodAction.new with op := ChmodActionOp.Remove, dirty := true }⟩
      else if c = '=' then
        Except.ok ⟨ParseState.ListOrCopy, sy,
          { cl with actions := cl.actions ++ [ac], dirty := true },
          { ChmodAction.new with op := ChmodActionOp.Set, dirty := true }⟩
      else if c = ',' then
        Except.ok ⟨ParseState.Wholist,
          ⟨sy.clauses ++ [{ cl with actions := cl.actions ++ [ac], dirty := true }]⟩,
          ChmodClause.new, ChmodAction.new⟩
      else Except.error ("unexpected character: ".push c) := by
  by_cases h1 : c = 'u'
  · subst h1; rfl
  by_cases h2 : c = 'g'
  · subst h2; rfl
  by_cases h3 : c = 'o'
  · subst h3; rfl
  have hugo : ¬(c = 'u' ∨ c = 'g' ∨ c = 'o') := by simp [h1, h2, h3]
  by_cases h4 : c = 'r'
  · subst h4; rfl
  by_cases h5 : c = 'w'
  · subst h5; rfl
  by_cases h6 : c = 'x'
  · subst h6; rfl
  by_cases h7 : c = 'X'
  · subst h7; rfl
  by_cases h8 : c = 's'
  · subst h8; rfl
  by_cases h9 : c = 't'
  · subst h9; rfl
  by_cases h10 : c = '+'
  · subst h10; rfl
  by_cases h11 : c = '-'
  · subst h11; rfl
  by_cases h12 : c = '='
  · subst h12; rfl
  by_cases h13 : c = ','
  · subst h13; rfl
  simp only [procChar, redispatch, loopStep, if_neg hugo, if_neg h1, if_neg h2, if_neg h3,
    if_neg h4, if_neg h5, if_neg h6, if_neg h7, if_neg h8, if_neg h9, if_neg h10,
    if_neg h11, if_neg h12, if_neg h13, Option.getD]

theorem procChar_PermCopy (sy : ChmodSymbolic) (cl : ChmodClause) (ac : ChmodAction)
    (c : Char) :
    procChar ⟨ParseState.PermCopy, sy, cl, ac⟩ c =
      if c = 'u' then
        Except.ok ⟨ParseState.PermCopy, sy, cl, { ac with copy_user := true }⟩
      else if c = 'g' then
        Except.ok ⟨ParseState.PermCopy, sy, cl, { ac with copy_group := true }⟩
      else if c = 'o' then
        Except.ok ⟨ParseState.PermCopy, sy, cl, { ac with copy_others := true }⟩
      else if c = '+' then
        Except.ok ⟨ParseState.ListOrCopy, sy,
          { cl with actions := cl.actions ++ [ac], dirty := true },
          { ChmodAction.new with op := ChmodActionOp.Add, dirty := true }⟩
      else if c = '-' then
        Except.ok ⟨ParseState.ListOrCopy, sy,
          { cl with actions := cl.actions ++ [ac], dirty := true },
          { ChmodAction.new with op := ChmodActionOp.Remove, dirty := true }⟩
      else if c = '=' then
        Except.ok ⟨ParseState.ListOrCopy, sy,
          { cl with actions := cl.actions ++ [ac], dirty := true },
          { ChmodAction.new with op := ChmodActionOp.Set, dirty := true }⟩
      else if c = ',' then
        Except.ok ⟨ParseState.Wholist,
          ⟨sy.clauses ++ [{ cl with actions := cl.actions ++ [ac], dirty := true }]⟩,
          ChmodClause.new, ChmodAction.new⟩
      else Except.error ("unexpected character: ".push c) := by
  by_cases h1 : c = 'u'
  · subst h1; rfl
  by_cases h2 : c = 'g'
  · subst h2; rfl
  by_cases h3 : c = 'o'
  · subst h3; rfl
  by_cases h4 : c = '+'
  · subst h4; rfl
  by_cases h5 : c = '-'
  · subst h5; rfl
  by_cases h6 : c = '='
  · subst h6; rfl
  by_cases h7 : c = ','
  · subst h7; rfl
  simp only [procChar, redispatch, loopStep, if_neg h1, if_neg h2, if_neg h3, if_neg h4,
    if_neg h5, if_neg h6, if_neg h7, Option.getD]

theorem procChar_PermList (sy : ChmodSymbolic) (cl : ChmodClause) (ac : ChmodAction)
    (c : Char) :
    procChar ⟨ParseState.PermList, sy, cl, ac⟩ c =
      if c = 'r' then
        Except.ok ⟨ParseState.PermList, sy, cl, { ac with read := true }⟩
      else if c = 'w' then
        Except.ok ⟨ParseState.PermList, sy, cl, { ac with write := true }⟩
      else if c = 'x' then
        Except.ok ⟨ParseState.PermList, sy, cl, { ac with execute := true }⟩
      else if c = 'X' then
        Except.ok ⟨ParseState.PermList, sy, cl, { ac with execute_dir := true }⟩
      else if c = 's' then
        Except.ok ⟨ParseState.PermList, sy, cl, { ac with setuid := true }⟩
      else if c = 't' then
        Except.ok ⟨ParseState.PermList, sy, cl, { ac with sticky := true }⟩
      else if c = '+' then
        Except.ok ⟨ParseState.ListOrCopy, sy,
          { cl with actions := cl.actions ++ [ac], dirty := true },
          { ChmodAction.new with op := ChmodActionOp.Add, dirty := true }⟩
      else if c = '-' then
        Except.ok ⟨ParseState.ListOrCopy, sy,
          { cl with actions := cl.actions ++ [ac], dirty := true },
          { ChmodAction.new with op := ChmodActionOp.Remove, dirty := true }⟩
      else if c = '=' then
        Except.ok ⟨ParseState.ListOrCopy, sy,
          { cl with actions := cl.actions ++ [ac], dirty := true },
          { ChmodAction.new with op := ChmodActionOp.Set, dirty := true }⟩
      else if c = ',' then
        Except.ok ⟨ParseState.Wholist,
          ⟨sy.clauses ++ [{ cl with actions := cl.actions ++ [ac], dirty := true }]⟩,
          ChmodClause.new, ChmodAction.new⟩
      else Except.error ("unexpected character: ".push c) := by
  by_cases h1 : c = 'r'
  · subst h1; rfl
  by_cases h2 : c = 'w'
  · subst h2; rfl
  by_cases h3 : c = 'x'
  · subst h3; rfl
  by_cases h4 : c = 'X'
  · subst h4; rfl
  by_cases h5 : c = 's'
  · subst h5; rfl
  by_cases h6 : c = 't'
  · subst h6; rfl
  by_cases h7 : c = '+'
  · subst h7; rfl
  by_cases h8 : c = '-'
  · subst h8; rfl
  by_cases h9 : c = '='
  · subst h9; rfl
  by_cases h10 : c = ','
  · subst h10; rfl
  simp only [procChar, redispatch, loopStep, if_neg h1, if_neg h2, if_neg h3, if_neg h4,
    if_neg h5, if_neg h6, if_neg h7, if_neg h8, if_neg h9, if_neg h10, Option.getD]

/-! ### Termination of the re-dispatch loop -/

theorem redispatch_four_isSome (S : ScanSt) (c : Char) : (redispatch 4 S c).isSome = true := by
  obtain ⟨st, sy, cl, ac⟩ := S
  cases st
  case Wholist =>
    by_cases h1 : c = 'u'
    · subst h1; rfl
    by_cases h2 : c = 'g'
    · subst h2; rfl
    by_cases h3 : c = 'o'
    · subst h3; rfl
    by_cases h4 : c = 'a'
    · subst h4; rfl
    by_cases h5 : c = '+'
    · subst h5; rfl
    by_cases h6 : c = '-'
    · subst h6; rfl
    by_cases h7 : c = '='
    · subst h7; rfl
    by_cases h8 : c = ','
    · subst h8; rfl
    simp only [redispatch, loopStep, if_neg h1, if_neg h2, if_neg h3, if_neg h4, if_neg h5,
      if_neg h6, if_neg h7, if_neg h8, Option.isSome]
  case Actionlist =>
    by_cases h5 : c = '+'
    · subst h5; rfl
    by_cases h6 : c = '-'
    · subst h6; rfl
    by_cases h7 : c = '='
    · subst h7; rfl
    by_cases h8 : c = ','
    · subst h8; rfl
    simp only [redispatch, loopStep, if_neg h5, if_neg h6, if_neg h7, if_neg h8,
      Option.isSome]
  case ListOrCopy =>
    by_cases h1 : c = 'u'
    · subst h1; rfl
    by_cases h2 : c = 'g'
    · subst h2; rfl
    by_cases h3 : c = 'o'
    · subst h3; rfl
    have hugo : ¬(c = 'u' ∨ c = 'g' ∨ c = 'o') := by simp [h1, h2, h3]
    by_cases h4 : c = 'r'
    · subst h4; rfl
    by_cases h5 : c = 'w'
    · subst h5; rfl
    by_cases h6 : c = 'x'
    · subst h6; rfl
    by_cases h7 : c = 'X'
    · subst h7; rfl
    by_cases h8 : c = 's'
    · subst h8; rfl
    by_cases h9 : c = 't'
    · subst h9; rfl
    by_cases h10 : c = '+'
    · subst h10; rfl
    by_cases h11 : c = '-'
    · subst h11; rfl
    by_cases h12 : c = '='
    · subst h12; rfl
    by_cases h13 : c = ','
    · subst h13; rfl
    simp only [redispatch, loopStep, if_neg hugo, if_neg h1, if_neg h2, if_neg h3, if_neg h4,
      if_neg h5, if_neg h6, if_neg h7, if_neg h8, if_neg h9, if_neg h10, if_neg h11,
      if_neg h12, if_neg h13, Option.isSome]
  case PermCopy =>
    by_cases h1 : c = 'u'
    · subst h1; rfl
    by_cases h2 : c = 'g'
    · subst h2; rfl
    by_cases h3 : c = 'o'
    · subst h3; rfl
    by_cases h4 : c = '+'
    · subst h4; rfl
    by_cases h5 : c = '-'
    · subst h5; rfl
    by_cases h6 : c = '='
    · subst h6; rfl
    by_cases h7 : c = ','
    · subst h7; rfl
    simp only [redispatch, loopStep, if_neg h1, if_neg h2, if_neg h3, if_neg h4, if_neg h5,
      if_neg h6, if_neg h7, Option.isSome]
  case PermList =>
    by_cases h1 : c = 'r'
    · subst h1; rfl
    by_cases h2 : c = 'w'
    · subst h2; rfl
    by_cases h3 : c = 'x'
    · subst h3; rfl
    by_cases h4 : c = 'X'
    · subst h4; rfl
    by_cases h5 : c = 's'
    · subst h5; rfl
    by_cases h6 : c = 't'
    · subst h6; rfl
    by_cases h7 : c = '+'
    · subst h7; rfl
    by_cases h8 : c = '-'
    · subst h8; rfl
    by_cases h9 : c = '='
    · subst h9; rfl
    by_cases h10 : c = ','
    · subst h10; rfl
    simp only [redispatch, loopStep, if_neg h1, if_neg h2, if_neg h3, if_neg h4, if_neg h5,
      if_neg h6, if_neg h7, if_neg h8, if_neg h9, if_neg h10, Option.isSome]
  case NextClause =>
    by_cases h8 : c = ','
    · subst h8; rfl
    simp only [redispatch, loopStep, if_neg h8, Option.isSome]

theorem redispatch_mono (m : Nat) :
    ∀ k S c r, redispatch m S c = some r → m ≤ k → redispatch k S c = some r := by
  induction m with
  | zero => intro k S c r h; simp [redispatch] at h
  | succ n ih =>
    intro k S c r h hk
    obtain ⟨k', rfl⟩ : ∃ k', k = k' + 1 := ⟨k - 1, by omega⟩
    simp only [redispatch] at h ⊢
    cases hls : loopStep S c with
    | inr r' => rw [hls] at h; exact h
    | inl S' =>
      rw [hls] at h
      exact ih k' S' c r h (by omega)

/-! ### Error characterization -/

theorem loopStep_error (S : ScanSt) (c : Char) (e : String)
    (h : loopStep S c = Sum.inr (Except.error e)) :
    S.state = ParseState.NextClause ∧ ¬(c = ',') ∧ e = "unexpected character: ".push c := by
  obtain ⟨st, sy, cl, ac⟩ := S
  cases st <;> simp only [loopStep] at h <;> split_ifs at h <;> simp_all

theorem loopStep_NextClause_error (S : ScanSt) (c : Char)
    (hst : S.state = ParseState.NextClause) (hc : ¬(c = ',')) :
    loopStep S c = Sum.inr (Except.error ("unexpected character: ".push c)) := by
  obtain ⟨st, sy, cl, ac⟩ := S
  simp only at hst
  subst hst
  simp only [loopStep, if_neg hc]

theorem redispatch_error (n : Nat) :
    ∀ S c e, redispatch n S c = some (Except.error e) →
      e = "unexpected character: ".push c := by
  induction n with
  | zero => intro S c e h; simp [redispatch] at h
  | succ m ih =>
    intro S c e h
    simp only [redispatch] at h
    cases hls : loopStep S c with
    | inr r =>
      rw [hls] at h
      simp only [Option.some.injEq] at h
      subst h
      exact (loopStep_error _ _ _ hls).2.2
    | inl S' =>
      rw [hls] at h
      exact ih S' c e h

theorem procChar_error (S : ScanSt) (c : Char) (e : String)
    (h : procChar S c = Except.error e) : e = "unexpected character: ".push c := by
  obtain ⟨r, hr⟩ := Option.isSome_iff_exists.mp (redispatch_four_isSome S c)
  rw [procChar, hr, Option.getD_some] at h
  subst h
  exact redispatch_error 4 S c e hr

theorem scan_error (l : List Char) :
    ∀ S e, scan S l = Except.error e → ∃ c ∈ l, e = "unexpected character: ".push c := by
  induction l with
  | nil => intro S e h; simp [scan] at h
  | cons c cs ih =>
    intro S e h
    simp only [scan] at h
    cases hp : procChar S c with
    | error e' =>
      rw [hp] at h
      simp only [Except.error.injEq] at h
      subst h
      exact ⟨c, List.mem_cons_self c cs, procChar_error S c e' hp⟩
    | ok S' =>
      rw [hp] at h
      obtain ⟨c', hc', he⟩ := ih S' e h
      exact ⟨c', List.mem_cons_of_mem _ hc', he⟩

/-! ### Characterization of the octal attempt -/

theorem octStep_le (a : Nat) (c : Char) : a ≤ octStep a c := by
  simp only [octStep]
  omega

theorem foldl_octStep_le (l : List Char) : ∀ a, a ≤ l.foldl octStep a := by
  induction l with
  | nil => intro a; simp
  | cons c cs ih =>
    intro a
    calc a ≤ octStep a c := octStep_le a c
    _ ≤ cs.foldl octStep (octStep a c) := ih (octStep a c)
    _ = (c :: cs).foldl octStep a := by simp

theorem octFold_some_iff (l : List Char) :
    ∀ a, a < 4294967296 → ∀ v,
      (octFold a l = some v ↔
        ((∀ c ∈ l, isOctal c = true) ∧ l.foldl octStep a < 4294967296 ∧
          v = l.foldl octStep a)) := by
  induction l with
  | nil =>
    intro a ha v
    constructor
    · intro h
      simp only [octFold, Option.some.injEq] at h
      exact ⟨by simp, by simpa using ha, h.symm⟩
    · rintro ⟨-, -, rfl⟩
      simp [octFold]
  | cons c cs ih =>
    intro a ha v
    by_cases hc : isOctal c = true
    · by_cases hlt : octStep a c < 4294967296
      · rw [show octFold a (c :: cs) = octFold (octStep a c) cs by
          simp only [octFold, if_pos hc, if_pos hlt]]
        rw [ih (octStep a c) hlt v]
        constructor
        · rintro ⟨hall, hlt2, rfl⟩
          refine ⟨?_, by simpa using hlt2, by simp⟩
          intro x hx
          rcases List.mem_cons.mp hx with rfl | hx
          · exact hc
          · exact hall x hx
        · rintro ⟨hall, hlt2, rfl⟩
          exact ⟨fun x hx => hall x (List.mem_cons_of_mem _ hx), by simpa using hlt2,
            by simp⟩
      · rw [show octFold a (c :: cs) = none by simp only [octFold, if_pos hc, if_neg hlt]]
        constructor
        · intro h; cases h
        · rintro ⟨-, hlt2, -⟩
          exfalso
          apply hlt
          calc octStep a c ≤ cs.foldl octStep (octStep a c) := foldl_octStep_le cs _
          _ = (c :: cs).foldl octStep a := by simp
          _ < 4294967296 := hlt2
    · rw [show octFold a (c :: cs) = none by simp only [octFold, if_neg hc]]
      constructor
      · intro h; cases h
      · rintro ⟨hall, -, -⟩
        exact absurd (hall c (List.mem_cons_self c cs)) hc

theorem fromStrRadix8_some_iff (m : String) (v : Nat) :
    fromStrRadix8 m = some v ↔ (okOctalStr m ∧ v = octValList (stripPlus m.data)) := by
  cases hd : m.data with
  | nil =>
    simp [fromStrRadix8, hd, okOctalStr, stripPlus]
  | cons c rest =>
    by_cases hc : c = '+'
    · subst hc
      by_cases hrest : rest = []
      · subst hrest
        simp [fromStrRadix8, hd, okOctalStr, stripPlus]
      · rw [show fromStrRadix8 m = octFold 0 rest by simp [fromStrRadix8, hd, hrest]]
        rw [octFold_some_iff rest 0 (by norm_num) v]
        simp only [okOctalStr, hd, stripPlus, if_pos rfl, octValList]
        constructor
        · rintro ⟨hall, hlt, rfl⟩
          exact ⟨⟨hrest, hall, hlt⟩, rfl⟩
        · rintro ⟨⟨-, hall, hlt⟩, rfl⟩
          exact ⟨hall, hlt, rfl⟩
    · rw [show fromStrRadix8 m = octFold 0 (c :: rest) by
        simp only [fromStrRadix8, hd, if_neg hc]]
      rw [octFold_some_iff (c :: rest) 0 (by norm_num) v]
      simp only [okOctalStr, hd, stripPlus, if_neg hc, octValList]
      constructor
      · rintro ⟨hall, hlt, rfl⟩
        exact ⟨⟨by simp, hall, hlt⟩, rfl⟩
      · rintro ⟨⟨-, hall, hlt⟩, rfl⟩
        exact ⟨hall, hlt, rfl⟩

/-! ### Comma-separated segments -/

theorem segs_ne_nil (l : List Char) : segs l ≠ [] := by
  induction l with
  | nil => simp [segs]
  | cons c cs ih =>
    by_cases hc : c = ','
    · simp [segs, hc]
    · simp [segs, hc]

theorem segs_length (l : List Char) : (segs l).length = l.count ',' + 1 := by
  induction l with
  | nil => simp [segs]
  | cons c cs ih =>
    by_cases hc : c = ','
    · subst hc
      simp [segs, ih, List.count_cons]
    · obtain ⟨h, t, hseg⟩ : ∃ h t, segs cs = h :: t := by
        cases hsc : segs cs with
        | nil => exact absurd hsc (segs_ne_nil cs)
        | cons h t => exact ⟨h, t, rfl⟩
      have := ih
      simp only [hseg, List.length_cons] at this
      simp [segs, hc, hseg, List.count_cons, this]

theorem mem_of_getLast?Eq {α : Type} (l : List α) (a : α) (h : l.getLast? = some a) :
    a ∈ l := by
  induction l with
  | nil => simp at h
  | cons c cs ih =>
    cases cs with
    | nil =>
      simp only [List.getLast?_singleton, Option.some.injEq] at h
      simp [h]
    | cons d ds =>
      rw [List.getLast?_cons_cons] at h
      exact List.mem_cons_of_mem _ (ih h)

theorem getLast?_cons_of_ne_nil {α : Type} (c : α) {cs : List α} (h : cs ≠ []) :
    (c :: cs).getLast? = cs.getLast? := by
  cases cs with
  | nil => exact absurd rfl h
  | cons d ds => exact List.getLast?_cons_cons

theorem segs_getLast?_comma (l : List Char) :
    l.getLast? = some ',' → (segs l).getLast? = some [] := by
  induction l with
  | nil => intro h; simp at h
  | cons c cs ih =>
    intro h
    by_cases hnil : cs = []
    · subst hnil
      simp only [List.getLast?_singleton, Option.some.injEq] at h
      subst h
      rfl
    · rw [getLast?_cons_of_ne_nil c hnil] at h
      have ihl := ih h
      obtain ⟨h1, t1, hseg⟩ : ∃ h1 t1, segs cs = h1 :: t1 := by
        cases hsc : segs cs with
        | nil => exact absurd hsc (segs_ne_nil cs)
        | cons x y => exact ⟨x, y, rfl⟩
      by_cases hc : c = ','
      · subst hc
        rw [show segs (',' :: cs) = [] :: segs cs from by simp [segs]]
        rw [hseg] at ihl ⊢
        rw [List.getLast?_cons_cons]
        exact ihl
      · rw [show segs (c :: cs) = (c :: (segs cs).headD []) :: (segs cs).tail from by
          simp [segs, hc]]
        cases ht1 : t1 with
        | nil =>
          exfalso
          rw [ht1] at hseg
          rw [hseg] at ihl
          simp only [List.getLast?_singleton, Option.some.injEq] at ihl
          subst ihl
          have hlen := segs_length cs
          rw [hseg] at hlen
          simp only [List.length_singleton] at hlen
          have hmem : (',' : Char) ∈ cs := mem_of_getLast?Eq cs ',' h
          have : cs.count ',' = 0 := by omega
          exact (List.count_eq_zero.mp this) hmem
        | cons e es =>
          rw [ht1] at hseg
          rw [hseg] at ihl ⊢
          simp only [List.tail_cons, List.getLast?_cons_cons, List.headD_cons] at ihl ⊢
          exact ihl

/-! ### The scan invariant -/

theorem count_append_ne (p : List Char) (c : Char) (hc : ¬(c = ',')) :
    (p ++ [c]).count ',' = p.count ',' := by
  simp [List.count_append, List.count_cons, beq_iff_eq, hc]

theorem count_append_comma (p : List Char) :
    (p ++ [',']).count ',' = p.count ',' + 1 := by
  simp [List.count_append, List.count_cons]

theorem endsNonComma_append (p : List Char) (c : Char) :
    endsNonComma (p ++ [c]) ↔ ¬(c = ',') := by
  unfold endsNonComma
  rw [List.getLast?_concat]
  simp

theorem goodAction_append (p : List Char) (c : Char) (a : ChmodAction)
    (h : goodAction p a) : goodAction (p ++ [c]) a :=
  ⟨h.1, List.mem_append_left _ h.2⟩

theorem Inv_init : Inv [] initSt := by
  refine
    { boundary := Or.inl rfl
      countComma := rfl
      dirtySeg := ?_
      freshW := fun _ => rfl
      dirtyNW := fun h => absurd rfl h
      flagsLC := fun h => nomatch h
      litPC := fun h => nomatch h
      copyPL := fun h => nomatch h
      opCur := fun h => nomatch h
      commSym := ?_
      commCl := ?_
      clDirty := fun h => nomatch h }
  · constructor
    · rintro (h | h) <;> exact nomatch h
    · rintro ⟨h, -⟩
      exact absurd rfl h
  · intro cl hcl
    exact absurd hcl (by simp [initSt, ChmodSymbolic.new])
  · intro a ha
    exact absurd ha (by simp [initSt, ChmodClause.new])

theorem Inv_step (p : List Char) (S S' : ScanSt) (c : Char)
    (hInv : Inv p S) (hstep : procChar S c = Except.ok S') : Inv (p ++ [c]) S' := by
  obtain ⟨st, sy, cl, ac⟩ := S
  cases st with
  | Actionlist => rcases hInv.boundary with h | h | h | h <;> exact nomatch h
  | NextClause => rcases hInv.boundary with h | h | h | h <;> exact nomatch h
  | Wholist =>
    have hfresh : ac = ChmodAction.new := hInv.freshW rfl
    subst hfresh
    by_cases h1 : c = 'u'
    · subst h1
      rw [show procChar ⟨ParseState.Wholist, sy, cl, ChmodAction.new⟩ 'u' =
          Except.ok ⟨ParseState.Wholist, sy, { cl with user := true, dirty := true }, ChmodAction.new⟩ from rfl] at hstep
      injection hstep with hstep
      subst hstep
      exact
        {
          boundary := Or.inl rfl
          countComma := by rw [count_append_ne p 'u' (by decide)]; exact hInv.countComma
          dirtySeg := by
            rw [endsNonComma_append]
            exact ⟨fun _ => by decide, fun _ => Or.inr rfl⟩
          freshW := fun _ => rfl
          dirtyNW := fun h => absurd rfl h
          flagsLC := fun h => nomatch h
          litPC := fun h => nomatch h
          copyPL := fun h => nomatch h
          opCur := fun h => List.mem_append_left _ (hInv.opCur h)
          commSym := fun cl' hcl' a ha => goodAction_append _ _ _ (hInv.commSym cl' hcl' a ha)
          commCl := fun a ha => goodAction_append _ _ _ (hInv.commCl a ha)
          clDirty := fun _ => Or.inl rfl }
    by_cases h2 : c = 'g'
    · subst h2
      rw [show procChar ⟨ParseState.Wholist, sy, cl, ChmodAction.new⟩ 'g' =
          Except.ok ⟨ParseState.Wholist, sy, { cl with group := true, dirty := true }, ChmodAction.new⟩ from rfl] at hstep
      injection hstep with hstep
      subst hstep
      exact
        {
          boundary := Or.inl rfl
          countComma := by rw [count_append_ne p 'g' (by decide)]; exact hInv.countComma
          dirtySeg := by
            rw [endsNonComma_append]
            exact ⟨fun _ => by decide, fun _ => Or.inr rfl⟩
          freshW := fun _ => rfl
          dirtyNW := fun h => absurd rfl h
          flagsLC := fun h => nomatch h
          litPC := fun h => nomatch h
          copyPL := fun h => nomatch h
          opCur := fun h => List.mem_append_left _ (hInv.opCur h)
          commSym := fun cl' hcl' a ha => goodAction_append _ _ _ (hInv.commSym cl' hcl' a ha)
          commCl := fun a ha => goodAction_append _ _ _ (hInv.commCl a ha)
          clDirty := fun _ => Or.inr (Or.inl rfl) }
    by_cases h3 : c = 'o'
    · subst h3
      rw [show procChar ⟨ParseState.Wholist, sy, cl, ChmodAction.new⟩ 'o' =
          Except.ok ⟨ParseState.Wholist, sy, { cl with others := true, dirty := true }, ChmodAction.new⟩ from rfl] at hstep
      injection hstep with hstep
      subst hstep
      exact
        {
          boundary := Or.inl rfl
          countComma := by rw [count_append_ne p 'o' (by decide)]; exact hInv.countComma
          dirtySeg := by
            rw [endsNonComma_append]
            exact ⟨fun _ => by decide, fun _ => Or.inr rfl⟩
          freshW := fun _ => rfl
          dirtyNW := fun h => absurd rfl h
          flagsLC := fun h => nomatch h
          litPC := fun h => nomatch h
          copyPL := fun h => nomatch h
          opCur := fun h => List.mem_append_left _ (hInv.opCur h)
          commSym := fun cl' hcl' a ha => goodAction_append _ _ _ (hInv.commSym cl' hcl' a ha)
          commCl := fun a ha => goodAction_append _ _ _ (hInv.commCl a ha)
          clDirty := fun _ => Or.inr (Or.inr (Or.inl rfl)) }
    by_cases h4 : c = 'a'
    · subst h4
      rw [show procChar ⟨ParseState.Wholist, sy, cl, ChmodAction.new⟩ 'a' =
          Except.ok ⟨ParseState.Wholist, sy, { cl with user := true, group := true, others := true, dirty := true }, ChmodAction.new⟩ from rfl] at hstep
      injection hstep with hstep
      subst hstep
      exact
        {
          boundary := Or.inl rfl
          countComma := by rw [count_append_ne p 'a' (by decide)]; exact hInv.countComma
          dirtySeg := by
            rw [endsNonComma_append]
            exact ⟨fun _ => by decide, fun _ => Or.inr rfl⟩
          freshW := fun _ => rfl
          dirtyNW := fun h => absurd rfl h
          flagsLC := fun h => nomatch h
          litPC := fun h => nomatch h
          copyPL := fun h => nomatch h
          opCur := fun h => List.mem_append_left _ (hInv.opCur h)
          commSym := fun cl' hcl' a ha => goodAction_append _ _ _ (hInv.commSym cl' hcl' a ha)
          commCl := fun a ha => goodAction_append _ _ _ (hInv.commCl a ha)
          clDirty := fun _ => Or.inl rfl }
    by_cases h5 : c = '+'
    · subst h5
      rw [show procChar ⟨ParseState.Wholist, sy, cl, ChmodAction.new⟩ '+' =
          Except.ok ⟨ParseState.ListOrCopy, sy, { cl with dirty := false },
            { ChmodAction.new with op := ChmodActionOp.Add, dirty := true }⟩ from rfl] at hstep
      injection hstep with hstep
      subst hstep
      exact
        {
          boundary := Or.inr (Or.inl rfl)
          countComma := by rw [count_append_ne p '+' (by decide)]; exact hInv.countComma
          dirtySeg := by
            rw [endsNonComma_append]
            exact ⟨fun _ => by decide, fun _ => Or.inl rfl⟩
          freshW := fun h => nomatch h
          dirtyNW := fun _ => rfl
          flagsLC := fun _ => ⟨rfl, rfl⟩
          litPC := fun h => nomatch h
          copyPL := fun h => nomatch h
          opCur := fun _ => List.mem_append_right p (List.mem_singleton.mpr rfl)
          commSym := fun cl' hcl' a ha => goodAction_append _ _ _ (hInv.commSym cl' hcl' a ha)
          commCl := fun a ha => goodAction_append _ _ _ (hInv.commCl a ha)
          clDirty := fun h => nomatch h }
    by_cases h6 : c = '-'
    · subst h6
      rw [show procChar ⟨ParseState.Wholist, sy, cl, ChmodAction.new⟩ '-' =
          Except.ok ⟨ParseState.ListOrCopy, sy, { cl with dirty := false },
            { ChmodAction.new with op := ChmodActionOp.Remove, dirty := true }⟩ from rfl] at hstep
      injection hstep with hstep
      subst hstep
      exact
        {
          boundary := Or.inr (Or.inl rfl)
          countComma := by rw [count_append_ne p '-' (by decide)]; exact hInv.countComma
          dirtySeg := by
            rw [endsNonComma_append]
            exact ⟨fun _ => by decide, fun _ => Or.inl rfl⟩
          freshW := fun h => nomatch h
          dirtyNW := fun _ => rfl
          flagsLC := fun _ => ⟨rfl, rfl⟩
          litPC := fun h => nomatch h
          copyPL := fun h => nomatch h
          opCur := fun _ => List.mem_append_right p (List.mem_singleton.mpr rfl)
          commSym := fun cl' hcl' a ha => goodAction_append _ _ _ (hInv.commSym cl' hcl' a ha)
          commCl := fun a ha => goodAction_append _ _ _ (hInv.commCl a ha)
          clDirty := fun h => nomatch h }
    by_cases h7 : c = '='
    · subst h7
      rw [show procChar ⟨ParseState.Wholist, sy, cl, ChmodAction.new⟩ '=' =
          Except.ok ⟨ParseState.ListOrCopy, sy, { cl with dirty := false },
            { ChmodAction.new with op := ChmodActionOp.Set, dirty := true }⟩ from rfl] at hstep
      injection hstep with hstep
      subst hstep
      exact
        {
          boundary := Or.inr (Or.inl rfl)
          countComma := by rw [count_append_ne p '=' (by decide)]; exact hInv.countComma
          dirtySeg := by
            rw [endsNonComma_append]
            exact ⟨fun _ => by decide, fun _ => Or.inl rfl⟩
          freshW := fun h => nomatch h
          dirtyNW := fun _ => rfl
          flagsLC := fun _ => ⟨rfl, rfl⟩
          litPC := fun h => nomatch h
          copyPL := fun h => nomatch h
          opCur := fun _ => List.mem_append_right p (List.mem_singleton.mpr rfl)
          commSym := fun cl' hcl' a ha => goodAction_append _ _ _ (hInv.commSym cl' hcl' a ha)
          commCl := fun a ha => goodAction_append _ _ _ (hInv.commCl a ha)
          clDirty := fun h => nomatch h }
    by_cases h8 : c = ','
    · subst h8
      rw [show procChar ⟨ParseState.Wholist, sy, cl, ChmodAction.new⟩ ',' =
          Except.ok ⟨ParseState.Wholist, ⟨sy.clauses ++ [{ cl with dirty := false }]⟩,
            ChmodClause.new, ChmodAction.new⟩ from rfl] at hstep
      injection hstep with hstep
      subst hstep
      exact
        {
          boundary := Or.inl rfl
          countComma := by simp [count_append_comma, hInv.countComma]
          dirtySeg := by
            rw [endsNonComma_append]
            constructor
            · rintro (h | h)
              · exact nomatch h
              · exact nomatch h
            · intro h
              exact absurd rfl h
          freshW := fun _ => rfl
          dirtyNW := fun h => absurd rfl h
          flagsLC := fun h => nomatch h
          litPC := fun h => nomatch h
          copyPL := fun h => nomatch h
          opCur := fun h => nomatch h
          commSym := fun cl' hcl' a ha => by
            rcases List.mem_append.mp hcl' with hmem | hmem
            · exact goodAction_append _ _ _ (hInv.commSym cl' hmem a ha)
            · obtain rfl := List.mem_singleton.mp hmem
              exact goodAction_append _ _ _ (hInv.commCl a ha)
          commCl := fun a ha => absurd ha (by simp [ChmodClause.new])
          clDirty := fun h => nomatch h }
    rw [procChar_Wholist] at hstep
    rw [if_neg h1, if_neg h2, if_neg h3, if_neg h4, if_neg h5, if_neg h6, if_neg h7,
      if_neg h8] at hstep
    exact Except.noConfusion hstep
  | ListOrCopy =>
    have hdirty : ac.dirty = true := hInv.dirtyNW (fun h => nomatch h)
    have hflags := hInv.flagsLC rfl
    have hop : opChar ac.op ∈ p := hInv.opCur hdirty
    by_cases h1 : c = 'u'
    · subst h1
      rw [show procChar ⟨ParseState.ListOrCopy, sy, cl, ac⟩ 'u' =
          Except.ok ⟨ParseState.PermCopy, sy, cl, { ac with copy_user := true }⟩ from rfl] at hstep
      injection hstep with hstep
      subst hstep
      exact
        {
          boundary := Or.inr (Or.inr (Or.inl rfl))
          countComma := by rw [count_append_ne p 'u' (by decide)]; exact hInv.countComma
          dirtySeg := by
            rw [endsNonComma_append]
            exact ⟨fun _ => by decide, fun _ => Or.inl hdirty⟩
          freshW := fun h => nomatch h
          dirtyNW := fun _ => hdirty
          flagsLC := fun h => nomatch h
          litPC := fun _ => hflags.2
          copyPL := fun h => nomatch h
          opCur := fun _ => List.mem_append_left _ hop
          commSym := fun cl' hcl' a ha => goodAction_append _ _ _ (hInv.commSym cl' hcl' a ha)
          commCl := fun a ha => goodAction_append _ _ _ (hInv.commCl a ha)
          clDirty := hInv.clDirty }
    by_cases h2 : c = 'g'
    · subst h2
      rw [show procChar ⟨ParseState.ListOrCopy, sy, cl, ac⟩ 'g' =
          Except.ok ⟨ParseState.PermCopy, sy, cl, { ac with copy_group := true }⟩ from rfl] at hstep
      injection hstep with hstep
      subst hstep
      exact
        {
          boundary := Or.inr (Or.inr (Or.inl rfl))
          countComma := by rw [count_append_ne p 'g' (by decide)]; exact hInv.countComma
          dirtySeg := by
            rw [endsNonComma_append]
            exact ⟨fun _ => by decide, fun _ => Or.inl hdirty⟩
          freshW := fun h => nomatch h
          dirtyNW := fun _ => hdirty
          flagsLC := fun h => nomatch h
          litPC := fun _ => hflags.2
          copyPL := fun h => nomatch h
          opCur := fun _ => List.mem_append_left _ hop
          commSym := fun cl' hcl' a ha => goodAction_append _ _ _ (hInv.commSym cl' hcl' a ha)
          commCl := fun a ha => goodAction_append _ _ _ (hInv.commCl a ha)
          clDirty := hInv.clDirty }
    by_cases h3 : c = 'o'
    · subst h3
      rw [show procChar ⟨ParseState.ListOrCopy, sy, cl, ac⟩ 'o' =
          Except.ok ⟨ParseState.PermCopy, sy, cl, { ac with copy_others := true }⟩ from rfl] at hstep
      injection hstep with hstep
      subst hstep
      exact
        {
          boundary := Or.inr (Or.inr (Or.inl rfl))
          countComma := by rw [count_append_ne p 'o' (by decide)]; exact hInv.countComma
          dirtySeg := by
            rw [endsNonComma_append]
            exact ⟨fun _ => by decide, fun _ => Or.inl hdirty⟩
          freshW := fun h => nomatch h
          dirtyNW := fun _ => hdirty
          flagsLC := fun h => nomatch h
          litPC := fun _ => hflags.2
          copyPL := fun h => nomatch h
          opCur := fun _ => List.mem_append_left _ hop
          commSym := fun cl' hcl' a ha => goodAction_append _ _ _ (hInv.commSym cl' hcl' a ha)
          commCl := fun a ha => goodAction_append _ _ _ (hInv.commCl a ha)
          clDirty := hInv.clDirty }
    by_cases h4 : c = 'r'
    · subst h4
      rw [show procChar ⟨ParseState.ListOrCopy, sy, cl, ac⟩ 'r' =
          Except.ok ⟨ParseState.PermList, sy, cl, { ac with read := true }⟩ from rfl] at hstep
      injection hstep with hstep
      subst hstep
      exact
        {
          boundary := Or.inr (Or.inr (Or.inr rfl))
          countComma := by rw [count_append_ne p 'r' (by decide)]; exact hInv.countComma
          dirtySeg := by
            rw [endsNonComma_append]
            exact ⟨fun _ => by decide, fun _ => Or.inl hdirty⟩
          freshW := fun h => nomatch h
          dirtyNW := fun _ => hdirty
          flagsLC := fun h => nomatch h
          litPC := fun h => nomatch h
          copyPL := fun _ => hflags.1
          opCur := fun _ => List.mem_append_left _ hop
          commSym := fun cl' hcl' a ha => goodAction_append _ _ _ (hInv.commSym cl' hcl' a ha)
          commCl := fun a ha => goodAction_append _ _ _ (hInv.commCl a ha)
          clDirty := hInv.clDirty }
    by_cases h5 : c = 'w'
    · subst h5
      rw [show procChar ⟨ParseState.ListOrCopy, sy, cl, ac⟩ 'w' =
          Except.ok ⟨ParseState.PermList, sy, cl, { ac with write := true }⟩ from rfl] at hstep
      injection hstep with hstep
      subst hstep
      exact
        {
          boundary := Or.inr (Or.inr (Or.inr rfl))
          countComma := by rw [count_append_ne p 'w' (by decide)]; exact hInv.countComma
          dirtySeg := by
            rw [endsNonComma_append]
            exact ⟨fun _ => by decide, fun _ => Or.inl hdirty⟩
          freshW := fun h => nomatch h
          dirtyNW := fun _ => hdirty
          flagsLC := fun h => nomatch h
          litPC := fun h => nomatch h
          copyPL := fun _ => hflags.1
          opCur := fun _ => List.mem_append_left _ hop
          commSym := fun cl' hcl' a ha => goodAction_append _ _ _ (hInv.commSym cl' hcl' a ha)
          commCl := fun a ha => goodAction_append _ _ _ (hInv.commCl a ha)
          clDirty := hInv.clDirty }
    by_cases h6 : c = 'x'
    · subst h6
      rw [show procChar ⟨ParseState.ListOrCopy, sy, cl, ac⟩ 'x' =
          Except.ok ⟨ParseState.PermList, sy, cl, { ac with execute := true }⟩ from rfl] at hstep
      injection hstep with hstep
      subst hstep
      exact
        {
          boundary := Or.inr (Or.inr (Or.inr rfl))
          countComma := by rw [count_append_ne p 'x' (by decide)]; exact hInv.countComma
          dirtySeg := by
            rw [endsNonComma_append]
            exact ⟨fun _ => by decide, fun _ => Or.inl hdirty⟩
          freshW := fun h => nomatch h
          dirtyNW := fun _ => hdirty
          flagsLC := fun h => nomatch h
          litPC := fun h => nomatch h
          copyPL := fun _ => hflags.1
          opCur := fun _ => List.mem_append_left _ hop
          commSym := fun cl' hcl' a ha => goodAction_append _ _ _ (hInv.commSym cl' hcl' a ha)
          commCl := fun a ha => goodAction_append _ _ _ (hInv.commCl a ha)
          clDirty := hInv.clDirty }
    by_cases h7 : c = 'X'
    · subst h7
      rw [show procChar ⟨ParseState.ListOrCopy, sy, cl, ac⟩ 'X' =
          Except.ok ⟨ParseState.PermList, sy, cl, { ac with execute_dir := true }⟩ from rfl] at hstep
      injection hstep with hstep
      subst hstep
      exact
        {
          boundary := Or.inr (Or.inr (Or.inr rfl))
          countComma := by rw [count_append_ne p 'X' (by decide)]; exact hInv.countComma
          dirtySeg := by
            rw [endsNonComma_append]
            exact ⟨fun _ => by decide, fun _ => Or.inl hdirty⟩
          freshW := fun h => nomatch h
          dirtyNW := fun _ => hdirty
          flagsLC := fun h => nomatch h
          litPC := fun h => nomatch h
          copyPL := fun _ => hflags.1
          opCur := fun _ => List.mem_append_left _ hop
          commSym := fun cl' hcl' a ha => goodAction_append _ _ _ (hInv.commSym cl' hcl' a ha)
          commCl := fun a ha => goodAction_append _ _ _ (hInv.commCl a ha)
          clDirty := hInv.clDirty }
    by_cases h8 : c = 's'
    · subst h8
      rw [show procChar ⟨ParseState.ListOrCopy, sy, cl, ac⟩ 's' =
          Except.ok ⟨ParseState.PermList, sy, cl, { ac with setuid := true }⟩ from rfl] at hstep
      injection hstep with hstep
      subst hstep
      exact
        {
          boundary := Or.inr (Or.inr (Or.inr rfl))
          countComma := by rw [count_append_ne p 's' (by decide)]; exact hInv.countComma
          dirtySeg := by
            rw [endsNonComma_append]
            exact ⟨fun _ => by decide, fun _ => Or.inl hdirty⟩
          freshW := fun h => nomatch h
          dirtyNW := fun _ => hdirty
          flagsLC := fun h => nomatch h
          litPC := fun h => nomatch h
          copyPL := fun _ => hflags.1
          opCur := fun _ => List.mem_append_left _ hop
          commSym := fun cl' hcl' a ha => goodAction_append _ _ _ (hInv.commSym cl' hcl' a ha)
          commCl := fun a ha => goodAction_append _ _ _ (hInv.commCl a ha)
          clDirty := hInv.clDirty }
    by_cases h9 : c = 't'
    · subst h9
      rw [show procChar ⟨ParseState.ListOrCopy, sy, cl, ac⟩ 't' =
          Except.ok ⟨ParseState.PermList, sy, cl, { ac with sticky := true }⟩ from rfl] at hstep
      injection hstep with hstep
      subst hstep
      exact
        {
          boundary := Or.inr (Or.inr (Or.inr rfl))
          countComma := by rw [count_append_ne p 't' (by decide)]; exact hInv.countComma
          dirtySeg := by
            rw [endsNonComma_append]
            exact ⟨fun _ => by decide, fun _ => Or.inl hdirty⟩
          freshW := fun h => nomatch h
          dirtyNW := fun _ => hdirty
          flagsLC := fun h => nomatch h
          litPC := fun h => nomatch h
          copyPL := fun _ => hflags.1
          opCur := fun _ => List.mem_append_left _ hop
          commSym := fun cl' hcl' a ha => goodAction_append _ _ _ (hInv.commSym cl' hcl' a ha)
          commCl := fun a ha => goodAction_append _ _ _ (hInv.commCl a ha)
          clDirty := hInv.clDirty }
    by_cases h10 : c = '+'
    · subst h10
      rw [show procChar ⟨ParseState.ListOrCopy, sy, cl, ac⟩ '+' =
          Except.ok ⟨ParseState.ListOrCopy, sy,
            { cl with actions := cl.actions ++ [ac], dirty := true },
            { ChmodAction.new with op := ChmodActionOp.Add, dirty := true }⟩ from rfl] at hstep
      injection hstep with hstep
      subst hstep
      exact
        {
          boundary := Or.inr (Or.inl rfl)
          countComma := by rw [count_append_ne p '+' (by decide)]; exact hInv.countComma
          dirtySeg := by
            rw [endsNonComma_append]
            exact ⟨fun _ => by decide, fun _ => Or.inl rfl⟩
          freshW := fun h => nomatch h
          dirtyNW := fun _ => rfl
          flagsLC := fun _ => ⟨rfl, rfl⟩
          litPC := fun h => nomatch h
          copyPL := fun h => nomatch h
          opCur := fun _ => List.mem_append_right p (List.mem_singleton.mpr rfl)
          commSym := fun cl' hcl' a ha => goodAction_append _ _ _ (hInv.commSym cl' hcl' a ha)
          commCl := fun a ha => by
              rcases List.mem_append.mp ha with hmem | hmem
              · exact goodAction_append _ _ _ (hInv.commCl a hmem)
              · obtain rfl := List.mem_singleton.mp hmem
                refine ⟨?_, List.mem_append_left _ hop⟩
                rintro ⟨hcp, hl⟩
                rw [hflags.1] at hcp
                exact nomatch hcp
          clDirty := fun _ => Or.inr (Or.inr (Or.inr (by simp))) }
    by_cases h11 : c = '-'
    · subst h11
      rw [show procChar ⟨ParseState.ListOrCopy, sy, cl, ac⟩ '-' =
          Except.ok ⟨ParseState.ListOrCopy, sy,
            { cl with actions := cl.actions ++ [ac], dirty := true },
            { ChmodAction.new with op := ChmodActionOp.Remove, dirty := true }⟩ from rfl] at hstep
      injection hstep with hstep
      subst hstep
      exact
        {
          boundary := Or.inr (Or.inl rfl)
          countComma := by rw [count_append_ne p '-' (by decide)]; exact hInv.countComma
          dirtySeg := by
            rw [endsNonComma_append]
            exact ⟨fun _ => by decide, fun _ => Or.inl rfl⟩
          freshW := fun h => nomatch h
          dirtyNW := fun _ => rfl
          flagsLC := fun _ => ⟨rfl, rfl⟩
          litPC := fun h => nomatch h
          copyPL := fun h => nomatch h
          opCur := fun _ => List.mem_append_right p (List.mem_singleton.mpr rfl)
          commSym := fun cl' hcl' a ha => goodAction_append _ _ _ (hInv.commSym cl' hcl' a ha)
          commCl := fun a ha => by
              rcases List.mem_append.mp ha with hmem | hmem
              · exact goodAction_append _ _ _ (hInv.commCl a hmem)
              · obtain rfl := List.mem_singleton.mp hmem
                refine ⟨?_, List.mem_append_left _ hop⟩
                rintro ⟨hcp, hl⟩
                rw [hflags.1] at hcp
                exact nomatch hcp
          clDirty := fun _ => Or.inr (Or.inr (Or.inr (by simp))) }
    by_cases h12 : c = '='
    · subst h12
      rw [show procChar ⟨ParseState.ListOrCopy, sy, cl, ac⟩ '=' =
          Except.ok ⟨ParseState.ListOrCopy, sy,
            { cl with actions := cl.actions ++ [ac], dirty := true },
            { ChmodAction.new with op := ChmodActionOp.Set, dirty := true }⟩ from rfl] at hstep
      injection hstep with hstep
      subst hstep
      exact
        {
          boundary := Or.inr (Or.inl rfl)
          countComma := by rw [count_append_ne p '=' (by decide)]; exact hInv.countComma
          dirtySeg := by
            rw [endsNonComma_append]
            exact ⟨fun _ => by decide, fun _ => Or.inl rfl⟩
          freshW := fun h => nomatch h
          dirtyNW := fun _ => rfl
          flagsLC := fun _ => ⟨rfl, rfl⟩
          litPC := fun h => nomatch h
          copyPL := fun h => nomatch h
          opCur := fun _ => List.mem_append_right p (List.mem_singleton.mpr rfl)
          commSym := fun cl' hcl' a ha => goodAction_append _ _ _ (hInv.commSym cl' hcl' a ha)
          commCl := fun a ha => by
              rcases List.mem_append.mp ha with hmem | hmem
              · exact goodAction_append _ _ _ (hInv.commCl a hmem)
              · obtain rfl := List.mem_singleton.mp hmem
                refine ⟨?_, List.mem_append_left _ hop⟩
                rintro ⟨hcp, hl⟩
                rw [hflags.1] at hcp
                exact nomatch hcp
          clDirty := fun _ => Or.inr (Or.inr (Or.inr (by simp))) }
    by_cases h13 : c = ','
    · subst h13
      rw [show procChar ⟨ParseState.ListOrCopy, sy, cl, ac⟩ ',' =
          Except.ok ⟨ParseState.Wholist,
            ⟨sy.clauses ++ [{ cl with actions := cl.actions ++ [ac], dirty := true }]⟩,
            ChmodClause.new, ChmodAction.new⟩ from rfl] at hstep
      injection hstep with hstep
      subst hstep
      exact
        {
          boundary := Or.inl rfl
          countComma := by simp [count_append_comma, hInv.countComma]
          dirtySeg := by
            rw [endsNonComma_append]
            constructor
            · rintro (h | h)
              · exact nomatch h
              · exact nomatch h
            · intro h
              exact absurd rfl h
          freshW := fun _ => rfl
          dirtyNW := fun h => absurd rfl h
          flagsLC := fun h => nomatch h
          litPC := fun h => nomatch h
          copyPL := fun h => nomatch h
          opCur := fun h => nomatch h
          commSym := fun cl' hcl' a ha => by
            rcases List.mem_append.mp hcl' with hmem | hmem
            · exact goodAction_append _ _ _ (hInv.commSym cl' hmem a ha)
            · obtain rfl := List.mem_singleton.mp hmem
              rcases List.mem_append.mp ha with hmem2 | hmem2
              · exact goodAction_append _ _ _ (hInv.commCl a hmem2)
              · obtain rfl := List.mem_singleton.mp hmem2
                refine ⟨?_, List.mem_append_left _ hop⟩
                rintro ⟨hcp, hl⟩
                rw [hflags.1] at hcp
                exact nomatch hcp
          commCl := fun a ha => absurd ha (by simp [ChmodClause.new])
          clDirty := fun h => nomatch h }
    rw [procChar_ListOrCopy] at hstep
    rw [if_neg h1, if_neg h2, if_neg h3, if_neg h4, if_neg h5, if_neg h6, if_neg h7,
      if_neg h8, if_neg h9, if_neg h10, if_neg h11, if_neg h12, if_neg h13] at hstep
    exact Except.noConfusion hstep
  | PermCopy =>
    have hdirty : ac.dirty = true := hInv.dirtyNW (fun h => nomatch h)
    have hlit := hInv.litPC rfl
    have hop : opChar ac.op ∈ p := hInv.opCur hdirty
    by_cases h1 : c = 'u'
    · subst h1
      rw [show procChar ⟨ParseState.PermCopy, sy, cl, ac⟩ 'u' =
          Except.ok ⟨ParseState.PermCopy, sy, cl, { ac with copy_user := true }⟩ from rfl] at hstep
      injection hstep with hstep
      subst hstep
      exact
        {
          boundary := Or.inr (Or.inr (Or.inl rfl))
          countComma := by rw [count_append_ne p 'u' (by decide)]; exact hInv.countComma
          dirtySeg := by
            rw [endsNonComma_append]
            exact ⟨fun _ => by decide, fun _ => Or.inl hdirty⟩
          freshW := fun h => nomatch h
          dirtyNW := fun _ => hdirty
          flagsLC := fun h => nomatch h
          litPC := fun _ => hlit
          copyPL := fun h => nomatch h
          opCur := fun _ => List.mem_append_left _ hop
          commSym := fun cl' hcl' a ha => goodAction_append _ _ _ (hInv.commSym cl' hcl' a ha)
          commCl := fun a ha => goodAction_append _ _ _ (hInv.commCl a ha)
          clDirty := hInv.clDirty }
    by_cases h2 : c = 'g'
    · subst h2
      rw [show procChar ⟨ParseState.PermCopy, sy, cl, ac⟩ 'g' =
          Except.ok ⟨ParseState.PermCopy, sy, cl, { ac with copy_group := true }⟩ from rfl] at hstep
      injection hstep with hstep
      subst hstep
      exact
        {
          boundary := Or.inr (Or.inr (Or.inl rfl))
          countComma := by rw [count_append_ne p 'g' (by decide)]; exact hInv.countComma
          dirtySeg := by
            rw [endsNonComma_append]
            exact ⟨fun _ => by decide, fun _ => Or.inl hdirty⟩
          freshW := fun h => nomatch h
          dirtyNW := fun _ => hdirty
          flagsLC := fun h => nomatch h
          litPC := fun _ => hlit
          copyPL := fun h => nomatch h
          opCur := fun _ => List.mem_append_left _ hop
          commSym := fun cl' hcl' a ha => goodAction_append _ _ _ (hInv.commSym cl' hcl' a ha)
          commCl := fun a ha => goodAction_append _ _ _ (hInv.commCl a ha)
          clDirty := hInv.clDirty }
    by_cases h3 : c = 'o'
    · subst h3
      rw [show procChar ⟨ParseState.PermCopy, sy, cl, ac⟩ 'o' =
          Except.ok ⟨ParseState.PermCopy, sy, cl, { ac with copy_others := true }⟩ from rfl] at hstep
      injection hstep with hstep
      subst hstep
      exact
        {
          boundary := Or.inr (Or.inr (Or.inl rfl))
          countComma := by rw [count_append_ne p 'o' (by decide)]; exact hInv.countComma
          dirtySeg := by
            rw [endsNonComma_append]
            exact ⟨fun _ => by decide, fun _ => Or.inl hdirty⟩
          freshW := fun h => nomatch h
          dirtyNW := fun _ => hdirty
          flagsLC := fun h => nomatch h
          litPC := fun _ => hlit
          copyPL := fun h => nomatch h
          opCur := fun _ => List.mem_append_left _ hop
          commSym := fun cl' hcl' a ha => goodAction_append _ _ _ (hInv.commSym cl' hcl' a ha)
          commCl := fun a ha => goodAction_append _ _ _ (hInv.commCl a ha)
          clDirty := hInv.clDirty }
    by_cases h4 : c = '+'
    · subst h4
      rw [show procChar ⟨ParseState.PermCopy, sy, cl, ac⟩ '+' =
          Except.ok ⟨ParseState.ListOrCopy, sy,
            { cl with actions := cl.actions ++ [ac], dirty := true },
            { ChmodAction.new with op := ChmodActionOp.Add, dirty := true }⟩ from rfl] at hstep
      injection hstep with hstep
      subst hstep
      exact
        {
          boundary := Or.inr (Or.inl rfl)
          countComma := by rw [count_append_ne p '+' (by decide)]; exact hInv.countComma
          dirtySeg := by
            rw [endsNonComma_append]
            exact ⟨fun _ => by decide, fun _ => Or.inl rfl⟩
          freshW := fun h => nomatch h
          dirtyNW := fun _ => rfl
          flagsLC := fun _ => ⟨rfl, rfl⟩
          litPC := fun h => nomatch h
          copyPL := fun h => nomatch h
          opCur := fun _ => List.mem_append_right p (List.mem_singleton.mpr rfl)
          commSym := fun cl' hcl' a ha => goodAction_append _ _ _ (hInv.commSym cl' hcl' a ha)
          commCl := fun a ha => by
              rcases List.mem_append.mp ha with hmem | hmem
              · exact goodAction_append _ _ _ (hInv.commCl a hmem)
              · obtain rfl := List.mem_singleton.mp hmem
                refine ⟨?_, List.mem_append_left _ hop⟩
                rintro ⟨hcp, hl⟩
                rw [hlit] at hl
                exact nomatch hl
          clDirty := fun _ => Or.inr (Or.inr (Or.inr (by simp))) }
    by_cases h5 : c = '-'
    · subst h5
      rw [show procChar ⟨ParseState.PermCopy, sy, cl, ac⟩ '-' =
          Except.ok ⟨ParseState.ListOrCopy, sy,
            { cl with actions := cl.actions ++ [ac], dirty := true },
            { ChmodAction.new with op := ChmodActionOp.Remove, dirty := true }⟩ from rfl] at hstep
      injection hstep with hstep
      subst hstep
      exact
        {
          boundary := Or.inr (Or.inl rfl)
          countComma := by rw [count_append_ne p '-' (by decide)]; exact hInv.countComma
          dirtySeg := by
            rw [endsNonComma_append]
            exact ⟨fun _ => by decide, fun _ => Or.inl rfl⟩
          freshW := fun h => nomatch h
          dirtyNW := fun _ => rfl
          flagsLC := fun _ => ⟨rfl, rfl⟩
          litPC := fun h => nomatch h
          copyPL := fun h => nomatch h
          opCur := fun _ => List.mem_append_right p (List.mem_singleton.mpr rfl)
          commSym := fun cl' hcl' a ha => goodAction_append _ _ _ (hInv.commSym cl' hcl' a ha)
          commCl := fun a ha => by
              rcases List.mem_append.mp ha with hmem | hmem
              · exact goodAction_append _ _ _ (hInv.commCl a hmem)
              · obtain rfl := List.mem_singleton.mp hmem
                refine ⟨?_, List.mem_append_left _ hop⟩
                rintro ⟨hcp, hl⟩
                rw [hlit] at hl
                exact nomatch hl
          clDirty := fun _ => Or.inr (Or.inr (Or.inr (by simp))) }
    by_cases h6 : c = '='
    · subst h6
      rw [show procChar ⟨ParseState.PermCopy, sy, cl, ac⟩ '=' =
          Except.ok ⟨ParseState.ListOrCopy, sy,
            { cl with actions := cl.actions ++ [ac], dirty := true },
            { ChmodAction.new with op := ChmodActionOp.Set, dirty := true }⟩ from rfl] at hstep
      injection hstep with hstep
      subst hstep
      exact
        {
          boundary := Or.inr (Or.inl rfl)
          countComma := by rw [count_append_ne p '=' (by decide)]; exact hInv.countComma
          dirtySeg := by
            rw [endsNonComma_append]
            exact ⟨fun _ => by decide, fun _ => Or.inl rfl⟩
          freshW := fun h => nomatch h
          dirtyNW := fun _ => rfl
          flagsLC := fun _ => ⟨rfl, rfl⟩
          litPC := fun h => nomatch h
          copyPL := fun h => nomatch h
          opCur := fun _ => List.mem_append_right p (List.mem_singleton.mpr rfl)
          commSym := fun cl' hcl' a ha => goodAction_append _ _ _ (hInv.commSym cl' hcl' a ha)
          commCl := fun a ha => by
              rcases List.mem_append.mp ha with hmem | hmem
              · exact goodAction_append _ _ _ (hInv.commCl a hmem)
              · obtain rfl := List.mem_singleton.mp hmem
                refine ⟨?_, List.mem_append_left _ hop⟩
                rintro ⟨hcp, hl⟩
                rw [hlit] at hl
                exact nomatch hl
          clDirty := fun _ => Or.inr (Or.inr (Or.inr (by simp))) }
    by_cases h7 : c = ','
    · subst h7
      rw [show procChar ⟨ParseState.PermCopy, sy, cl, ac⟩ ',' =
          Except.ok ⟨ParseState.Wholist,
            ⟨sy.clauses ++ [{ cl with actions := cl.actions ++ [ac], dirty := true }]⟩,
            ChmodClause.new, ChmodAction.new⟩ from rfl] at hstep
      injection hstep with hstep
      subst hstep
      exact
        {
          boundary := Or.inl rfl
          countComma := by simp [count_append_comma, hInv.countComma]
          dirtySeg := by
            rw [endsNonComma_append]
            constructor
            · rintro (h | h)
              · exact nomatch h
              · exact nomatch h
            · intro h
              exact absurd rfl h
          freshW := fun _ => rfl
          dirtyNW := fun h => absurd rfl h
          flagsLC := fun h => nomatch h
          litPC := fun h => nomatch h
          copyPL := fun h => nomatch h
          opCur := fun h => nomatch h
          commSym := fun cl' hcl' a ha => by
            rcases List.mem_append.mp hcl' with hmem | hmem
            · exact goodAction_append _ _ _ (hInv.commSym cl' hmem a ha)
            · obtain rfl := List.mem_singleton.mp hmem
              rcases List.mem_append.mp ha with hmem2 | hmem2
              · exact goodAction_append _ _ _ (hInv.commCl a hmem2)
              · obtain rfl := List.mem_singleton.mp hmem2
                refine ⟨?_, List.mem_append_left _ hop⟩
                rintro ⟨hcp, hl⟩
                rw [hlit] at hl
                exact nomatch hl
          commCl := fun a ha => absurd ha (by simp [ChmodClause.new])
          clDirty := fun h => nomatch h }
    rw [procChar_PermCopy] at hstep
    rw [if_neg h1, if_neg h2, if_neg h3, if_neg h4, if_neg h5, if_neg h6, if_neg h7] at hstep
    exact Except.noConfusion hstep
  | PermList =>
    have hdirty : ac.dirty = true := hInv.dirtyNW (fun h => nomatch h)
    have hcpy := hInv.copyPL rfl
    have hop : opChar ac.op ∈ p := hInv.opCur hdirty
    by_cases h1 : c = 'r'
    · subst h1
      rw [show procChar ⟨ParseState.PermList, sy, cl, ac⟩ 'r' =
          Except.ok ⟨ParseState.PermList, sy, cl, { ac with read := true }⟩ from rfl] at hstep
      injection hstep with hstep
      subst hstep
      exact
        {
          boundary := Or.inr (Or.inr (Or.inr rfl))
          countComma := by rw [count_append_ne p 'r' (by decide)]; exact hInv.countComma
          dirtySeg := by
            rw [endsNonComma_append]
            exact ⟨fun _ => by decide, fun _ => Or.inl hdirty⟩
          freshW := fun h => nomatch h
          dirtyNW := fun _ => hdirty
          flagsLC := fun h => nomatch h
          litPC := fun h => nomatch h
          copyPL := fun _ => hcpy
          opCur := fun _ => List.mem_append_left _ hop
          commSym := fun cl' hcl' a ha => goodAction_append _ _ _ (hInv.commSym cl' hcl' a ha)
          commCl := fun a ha => goodAction_append _ _ _ (hInv.commCl a ha)
          clDirty := hInv.clDirty }
    by_cases h2 : c = 'w'
    · subst h2
      rw [show procChar ⟨ParseState.PermList, sy, cl, ac⟩ 'w' =
          Except.ok ⟨ParseState.PermList, sy, cl, { ac with write := true }⟩ from rfl] at hstep
      injection hstep with hstep
      subst hstep
      exact
        {
          boundary := Or.inr (Or.inr (Or.inr rfl))
          countComma := by rw [count_append_ne p 'w' (by decide)]; exact hInv.countComma
          dirtySeg := by
            rw [endsNonComma_append]
            exact ⟨fun _ => by decide, fun _ => Or.inl hdirty⟩
          freshW := fun h => nomatch h
          dirtyNW := fun _ => hdirty
          flagsLC := fun h => nomatch h
          litPC := fun h => nomatch h
          copyPL := fun _ => hcpy
          opCur := fun _ => List.mem_append_left _ hop
          commSym := fun cl' hcl' a ha => goodAction_append _ _ _ (hInv.commSym cl' hcl' a ha)
          commCl := fun a ha => goodAction_append _ _ _ (hInv.commCl a ha)
          clDirty := hInv.clDirty }
    by_cases h3 : c = 'x'
    · subst h3
      rw [show procChar ⟨ParseState.PermList, sy, cl, ac⟩ 'x' =
          Except.ok ⟨ParseState.PermList, sy, cl, { ac with execute := true }⟩ from rfl] at hstep
      injection hstep with hstep
      subst hstep
      exact
        {
          boundary := Or.inr (Or.inr (Or.inr rfl))
          countComma := by rw [count_append_ne p 'x' (by decide)]; exact hInv.countComma
          dirtySeg := by
            rw [endsNonComma_append]
            exact ⟨fun _ => by decide, fun _ => Or.inl hdirty⟩
          freshW := fun h => nomatch h
          dirtyNW := fun _ => hdirty
          flagsLC := fun h => nomatch h
          litPC := fun h => nomatch h
          copyPL := fun _ => hcpy
          opCur := fun _ => List.mem_append_left _ hop
          commSym := fun cl' hcl' a ha => goodAction_append _ _ _ (hInv.commSym cl' hcl' a ha)
          commCl := fun a ha => goodAction_append _ _ _ (hInv.commCl a ha)
          clDirty := hInv.clDirty }
    by_cases h4 : c = 'X'
    · subst h4
      rw [show procChar ⟨ParseState.PermList, sy, cl, ac⟩ 'X' =
          Except.ok ⟨ParseState.PermList, sy, cl, { ac with execute_dir := true }⟩ from rfl] at hstep
      injection hstep with hstep
      subst hstep
      exact
        {
          boundary := Or.inr (Or.inr (Or.inr rfl))
          countComma := by rw [count_append_ne p 'X' (by decide)]; exact hInv.countComma
          dirtySeg := by
            rw [endsNonComma_append]
            exact ⟨fun _ => by decide, fun _ => Or.inl hdirty⟩
          freshW := fun h => nomatch h
          dirtyNW := fun _ => hdirty
          flagsLC := fun h => nomatch h
          litPC := fun h => nomatch h
          copyPL := fun _ => hcpy
          opCur := fun _ => List.mem_append_left _ hop
          commSym := fun cl' hcl' a ha => goodAction_append _ _ _ (hInv.commSym cl' hcl' a ha)
          commCl := fun a ha => goodAction_append _ _ _ (hInv.commCl a ha)
          clDirty := hInv.clDirty }
    by_cases h5 : c = 's'
    · subst h5
      rw [show procChar ⟨ParseState.PermList, sy, cl, ac⟩ 's' =
          Except.ok ⟨ParseState.PermList, sy, cl, { ac with setuid := true }⟩ from rfl] at hstep
      injection hstep with hstep
      subst hstep
      exact
        {
          boundary := Or.inr (Or.inr (Or.inr rfl))
          countComma := by rw [count_append_ne p 's' (by decide)]; exact hInv.countComma
          dirtySeg := by
            rw [endsNonComma_append]
            exact ⟨fun _ => by decide, fun _ => Or.inl hdirty⟩
          freshW := fun h => nomatch h
          dirtyNW := fun _ => hdirty
          flagsLC := fun h => nomatch h
          litPC := fun h => nomatch h
          copyPL := fun _ => hcpy
          opCur := fun _ => List.mem_append_left _ hop
          commSym := fun cl' hcl' a ha => goodAction_append _ _ _ (hInv.commSym cl' hcl' a ha)
          commCl := fun a ha => goodAction_append _ _ _ (hInv.commCl a ha)
          clDirty := hInv.clDirty }
    by_cases h6 : c = 't'
    · subst h6
      rw [show procChar ⟨ParseState.PermList, sy, cl, ac⟩ 't' =
          Except.ok ⟨ParseState.PermList, sy, cl, { ac with sticky := true }⟩ from rfl] at hstep
      injection hstep with hstep
      subst hstep
      exact
        {
          boundary := Or.inr (Or.inr (Or.inr rfl))
          countComma := by rw [count_append_ne p 't' (by decide)]; exact hInv.countComma
          dirtySeg := by
            rw [endsNonComma_append]
            exact ⟨fun _ => by decide, fun _ => Or.inl hdirty⟩
          freshW := fun h => nomatch h
          dirtyNW := fun _ => hdirty
          flagsLC := fun h => nomatch h
          litPC := fun h => nomatch h
          copyPL := fun _ => hcpy
          opCur := fun _ => List.mem_append_left _ hop
          commSym := fun cl' hcl' a ha => goodAction_append _ _ _ (hInv.commSym cl' hcl' a ha)
          commCl := fun a ha => goodAction_append _ _ _ (hInv.commCl a ha)
          clDirty := hInv.clDirty }
    by_cases h7 : c = '+'
    · subst h7
      rw [show procChar ⟨ParseState.PermList, sy, cl, ac⟩ '+' =
          Except.ok ⟨ParseState.ListOrCopy, sy,
            { cl with actions := cl.actions ++ [ac], dirty := true },
            { ChmodAction.new with op := ChmodActionOp.Add, dirty := true }⟩ from rfl] at hstep
      injection hstep with hstep
      subst hstep
      exact
        {
          boundary := Or.inr (Or.inl rfl)
          countComma := by rw [count_append_ne p '+' (by decide)]; exact hInv.countComma
          dirtySeg := by
            rw [endsNonComma_append]
            exact ⟨fun _ => by decide, fun _ => Or.inl rfl⟩
          freshW := fun h => nomatch h
          dirtyNW := fun _ => rfl
          flagsLC := fun _ => ⟨rfl, rfl⟩
          litPC := fun h => nomatch h
          copyPL := fun h => nomatch h
          opCur := fun _ => List.mem_append_right p (List.mem_singleton.mpr rfl)
          commSym := fun cl' hcl' a ha => goodAction_append _ _ _ (hInv.commSym cl' hcl' a ha)
          commCl := fun a ha => by
              rcases List.mem_append.mp ha with hmem | hmem
              · exact goodAction_append _ _ _ (hInv.commCl a hmem)
              · obtain rfl := List.mem_singleton.mp hmem
                refine ⟨?_, List.mem_append_left _ hop⟩
                rintro ⟨hcp, hl⟩
                rw [hcpy] at hcp
                exact nomatch hcp
          clDirty := fun _ => Or.inr (Or.inr (Or.inr (by simp))) }
    by_cases h8 : c = '-'
    · subst h8
      rw [show procChar ⟨ParseState.PermList, sy, cl, ac⟩ '-' =
          Except.ok ⟨ParseState.ListOrCopy, sy,
            { cl with actions := cl.actions ++ [ac], dirty := true },
            { ChmodAction.new with op := ChmodActionOp.Remove, dirty := true }⟩ from rfl] at hstep
      injection hstep with hstep
      subst hstep
      exact
        {
          boundary := Or.inr (Or.inl rfl)
          countComma := by rw [count_append_ne p '-' (by decide)]; exact hInv.countComma
          dirtySeg := by
            rw [endsNonComma_append]
            exact ⟨fun _ => by decide, fun _ => Or.inl rfl⟩
          freshW := fun h => nomatch h
          dirtyNW := fun _ => rfl
          flagsLC := fun _ => ⟨rfl, rfl⟩
          litPC := fun h => nomatch h
          copyPL := fun h => nomatch h
          opCur := fun _ => List.mem_append_right p (List.mem_singleton.mpr rfl)
          commSym := fun cl' hcl' a ha => goodAction_append _ _ _ (hInv.commSym cl' hcl' a ha)
          commCl := fun a ha => by
              rcases List.mem_append.mp ha with hmem | hmem
              · exact goodAction_append _ _ _ (hInv.commCl a hmem)
              · obtain rfl := List.mem_singleton.mp hmem
                refine ⟨?_, List.mem_append_left _ hop⟩
                rintro ⟨hcp, hl⟩
                rw [hcpy] at hcp
                exact nomatch hcp
          clDirty := fun _ => Or.inr (Or.inr (Or.inr (by simp))) }
    by_cases h9 : c = '='
    · subst h9
      rw [show procChar ⟨ParseState.PermList, sy, cl, ac⟩ '=' =
          Except.ok ⟨ParseState.ListOrCopy, sy,
            { cl with actions := cl.actions ++ [ac], dirty := true },
            { ChmodAction.new with op := ChmodActionOp.Set, dirty := true }⟩ from rfl] at hstep
      injection hstep with hstep
      subst hstep
      exact
        {
          boundary := Or.inr (Or.inl rfl)
          countComma := by rw [count_append_ne p '=' (by decide)]; exact hInv.countComma
          dirtySeg := by
            rw [endsNonComma_append]
            exact ⟨fun _ => by decide, fun _ => Or.inl rfl⟩
          freshW := fun h => nomatch h
          dirtyNW := fun _ => rfl
          flagsLC := fun _ => ⟨rfl, rfl⟩
          litPC := fun h => nomatch h
          copyPL := fun h => nomatch h
          opCur := fun _ => List.mem_append_right p (List.mem_singleton.mpr rfl)
          commSym := fun cl' hcl' a ha => goodAction_append _ _ _ (hInv.commSym cl' hcl' a ha)
          commCl := fun a ha => by
              rcases List.mem_append.mp ha with hmem | hmem
              · exact goodAction_append _ _ _ (hInv.commCl a hmem)
              · obtain rfl := List.mem_singleton.mp hmem
                refine ⟨?_, List.mem_append_left _ hop⟩
                rintro ⟨hcp, hl⟩
                rw [hcpy] at hcp
                exact nomatch hcp
          clDirty := fun _ => Or.inr (Or.inr (Or.inr (by simp))) }
    by_cases h10 : c = ','
    · subst h10
      rw [show procChar ⟨ParseState.PermList, sy, cl, ac⟩ ',' =
          Except.ok ⟨ParseState.Wholist,
            ⟨sy.clauses ++ [{ cl with actions := cl.actions ++ [ac], dirty := true }]⟩,
            ChmodClause.new, ChmodAction.new⟩ from rfl] at hstep
      injection hstep with hstep
      subst hstep
      exact
        {
          boundary := Or.inl rfl
          countComma := by simp [count_append_comma, hInv.countComma]
          dirtySeg := by
            rw [endsNonComma_append]
            constructor
            · rintro (h | h)
              · exact nomatch h
              · exact nomatch h
            · intro h
              exact absurd rfl h
          freshW := fun _ => rfl
          dirtyNW := fun h => absurd rfl h
          flagsLC := fun h => nomatch h
          litPC := fun h => nomatch h
          copyPL := fun h => nomatch h
          opCur := fun h => nomatch h
          commSym := fun cl' hcl' a ha => by
            rcases List.mem_append.mp hcl' with hmem | hmem
            · exact goodAction_append _ _ _ (hInv.commSym cl' hmem a ha)
            · obtain rfl := List.mem_singleton.mp hmem
              rcases List.mem_append.mp ha with hmem2 | hmem2
              · exact goodAction_append _ _ _ (hInv.commCl a hmem2)
              · obtain rfl := List.mem_singleton.mp hmem2
                refine ⟨?_, List.mem_append_left _ hop⟩
                rintro ⟨hcp, hl⟩
                rw [hcpy] at hcp
                exact nomatch hcp
          commCl := fun a ha => absurd ha (by simp [ChmodClause.new])
          clDirty := fun h => nomatch h }
    rw [procChar_PermList] at hstep
    rw [if_neg h1, if_neg h2, if_neg h3, if_neg h4, if_neg h5, if_neg h6, if_neg h7,
      if_neg h8, if_neg h9, if_neg h10] at hstep
    exact Except.noConfusion hstep

theorem scan_Inv (l : List Char) :
    ∀ p S S', Inv p S → scan S l = Except.ok S' → Inv (p ++ l) S' := by
  induction l with
  | nil =>
    intro p S S' hI h
    simp only [scan] at h
    injection h with h
    subst h
    simpa using hI
  | cons c cs ih =>
    intro p S S' hI h
    simp only [scan] at h
    cases hp : procChar S c with
    | error e =>
      rw [hp] at h
      exact Except.noConfusion h
    | ok S1 =>
      rw [hp] at h
      have h1 := Inv_step p S S1 c hI hp
      have h2 := ih (p ++ [c]) S1 S' h1 h
      simpa [List.append_assoc] using h2

theorem parse_symbolic_elim (m : String) (s : ChmodSymbolic)
    (h : parse m = Except.ok (ChmodMode.Symbolic s)) :
    ∃ S, scan initSt m.data = Except.ok S ∧ Inv m.data S ∧ s = finalize S := by
  rw [parse] at h
  cases hf : fromStrRadix8 m with
  | some v =>
    rw [hf] at h
    injection h with h
    exact ChmodMode.noConfusion h
  | none =>
    rw [hf] at h
    rw [symbolicParse] at h
    cases hs : scan initSt m.data with
    | error e =>
      rw [hs] at h
      exact Except.noConfusion h
    | ok S =>
      rw [hs] at h
      injection h with h
      injection h with h
      exact ⟨S, rfl, by simpa using scan_Inv m.data [] initSt S Inv_init hs, h.symm⟩

theorem finalize_cases (S : ScanSt) :
    (S.action.dirty = false ∧ S.clause.dirty = false ∧ finalize S = S.symbolic) ∨
    (S.action.dirty = false ∧ S.clause.dirty = true ∧
      finalize S = ⟨S.symbolic.clauses ++ [S.clause]⟩) ∨
    (S.action.dirty = true ∧
      finalize S = ⟨S.symbolic.clauses ++
        [{ S.clause with actions := S.clause.actions ++ [S.action], dirty := true }]⟩) := by
  cases had : S.action.dirty with
  | false =>
    cases hcd : S.clause.dirty with
    | false => exact Or.inl ⟨rfl, rfl, by simp [finalize, had, hcd]⟩
    | true => exact Or.inr (Or.inl ⟨rfl, rfl, by simp [finalize, had, hcd]⟩)
  | true => exact Or.inr (Or.inr ⟨rfl, by simp [finalize, had]⟩)

theorem parse_symbolic_count (m : String) (s : ChmodSymbolic)
    (h : parse m = Except.ok (ChmodMode.Symbolic s)) :
    s.clauses.length = m.data.count ',' + (if endsNonComma m.data then 1 else 0) := by
  obtain ⟨S, hs, hInv, rfl⟩ := parse_symbolic_elim m s h
  rcases finalize_cases S with ⟨had, hcd, hfin⟩ | ⟨had, hcd, hfin⟩ | ⟨had, hfin⟩
  · have hno : ¬ endsNonComma m.data := by
      intro he
      rcases hInv.dirtySeg.mpr he with hd | hd
      · rw [had] at hd; exact nomatch hd
      · rw [hcd] at hd; exact nomatch hd
    rw [hfin, if_neg hno, hInv.countComma]
    omega
  · have hend : endsNonComma m.data := hInv.dirtySeg.mp (Or.inr hcd)
    rw [hfin, if_pos hend]
    simp [hInv.countComma]
  · have hend : endsNonComma m.data := hInv.dirtySeg.mp (Or.inl had)
    rw [hfin, if_pos hend]
    simp [hInv.countComma]

/-! ### The claims -/

/-- C1 (corrected): `parse` returns `Absolute v` exactly when the input, after
stripping one optional leading `'+'` sign, is a nonempty string of octal
digits whose base-8 value fits in 32 bits; `v` is that value, and on every
other input the symbolic grammar is run instead.  The claim as frozen
(`Absolute` exactly when *every character* is an octal digit) is refuted by
`"+7"` — see the counterexample theorem. -/
theorem c1_absolute_characterization (m : String) :
    ((∃ v, parse m = Except.ok (ChmodMode.Absolute v)) ↔ okOctalStr m) ∧
    (∀ v, parse m = Except.ok (ChmodMode.Absolute v) →
      v = octValList (stripPlus m.data)) ∧
    (¬ okOctalStr m → parse m = symbolicParse m) := by
  refine ⟨⟨?_, ?_⟩, ?_, ?_⟩
  · rintro ⟨v, hv⟩
    rw [parse] at hv
    cases hf : fromStrRadix8 m with
    | some w => exact ((fromStrRadix8_some_iff m w).mp hf).1
    | none =>
      rw [hf] at hv
      rw [symbolicParse] at hv
      cases hs : scan initSt m.data with
      | error e => rw [hs] at hv; exact Except.noConfusion hv
      | ok S =>
        rw [hs] at hv
        injection hv with hv
        exact ChmodMode.noConfusion hv
  · intro hok
    refine ⟨octValList (stripPlus m.data), ?_⟩
    rw [parse]
    rw [(fromStrRadix8_some_iff m _).mpr ⟨hok, rfl⟩]
  · intro v hv
    rw [parse] at hv
    cases hf : fromStrRadix8 m with
    | some w =>
      rw [hf] at hv
      injection hv with hv
      injection hv with hv
      rw [← hv]
      exact ((fromStrRadix8_some_iff m w).mp hf).2
    | none =>
      rw [hf] at hv
      rw [symbolicParse] at hv
      cases hs : scan initSt m.data with
      | error e => rw [hs] at hv; exact Except.noConfusion hv
      | ok S =>
        rw [hs] at hv
        injection hv with hv
        exact ChmodMode.noConfusion hv
  · intro hnok
    rw [parse]
    cases hf : fromStrRadix8 m with
    | some w => exact absurd ((fromStrRadix8_some_iff m w).mp hf).1 hnok
    | none => rfl

/-- C1 counterexample: on `"+7"` the parser returns `Absolute 7` even though
not every character of the input is an octal digit (`'+'` is not), because
`u32::from_str_radix` accepts an optional leading `'+'` sign. -/
theorem c1_counterexample :
    parse "+7" = Except.ok (ChmodMode.Absolute 7) ∧
    ¬(∀ c ∈ "+7".data, isOctal c = true) := by
  refine ⟨rfl, ?_⟩
  intro h
  exact absurd (h '+' (by decide)) (by decide)

/-- C1 witness: instantiating the characterization at `"7"`. -/
theorem c1_witness : (7 : Nat) = octValList (stripPlus "7".data) :=
  (c1_absolute_characterization "7").2.1 7 rfl

/-- C2: the inner loop errors exactly when the machine is in `NextClause`
and the character is not a comma; the single error kind carries the message
naming the offending character; any error returned by `parse` has that form
for some input character.  In every other state every character is accepted
by some transition. -/
theorem c2_error_characterization :
    (∀ S c, (∃ e, loopStep S c = Sum.inr (Except.error e)) ↔
      (S.state = ParseState.NextClause ∧ ¬(c = ','))) ∧
    (∀ S c e, loopStep S c = Sum.inr (Except.error e) →
      e = "unexpected character: ".push c) ∧
    (∀ m e, parse m = Except.error e →
      ∃ c ∈ m.data, e = "unexpected character: ".push c) := by
  refine ⟨?_, ?_, ?_⟩
  · intro S c
    constructor
    · rintro ⟨e, he⟩
      have h := loopStep_error S c e he
      exact ⟨h.1, h.2.1⟩
    · rintro ⟨hst, hc⟩
      exact ⟨_, loopStep_NextClause_error S c hst hc⟩
  · intro S c e he
    exact (loopStep_error S c e he).2.2
  · intro m e h
    rw [parse] at h
    cases hf : fromStrRadix8 m with
    | some v =>
      rw [hf] at h
      exact Except.noConfusion h
    | none =>
      rw [hf] at h
      rw [symbolicParse] at h
      cases hs : scan initSt m.data with
      | error e2 =>
        rw [hs] at h
        injection h with h
        subst h
        exact scan_error m.data initSt e2 hs
      | ok S =>
        rw [hs] at h
        exact Except.noConfusion h

/-- C2 witness: in `NextClause` the character `'z'` produces an error. -/
theorem c2_witness :
    ∃ e, loopStep ⟨ParseState.NextClause, ChmodSymbolic.new, ChmodClause.new,
      ChmodAction.new⟩ 'z' = Sum.inr (Except.error e) :=
  (c2_error_characterization.1 _ 'z').mpr ⟨rfl, by decide⟩

/-- C3 counterexample: `parse "u"` succeeds symbolically and commits a clause
whose `actions` sequence is empty — the trailing fragment had no action
characters, yet a clause (dirty from the subject character) was appended. -/
theorem c3_counterexample :
    parse "u" = Except.ok (ChmodMode.Symbolic ⟨[⟨true, false, false, [], true⟩]⟩) ∧
    (⟨true, false, false, [], true⟩ : ChmodClause).actions = [] :=
  ⟨rfl, rfl⟩

/-- C3 (corrected): a committed clause may have an empty `actions` sequence
(e.g. `parse "u"`).  What holds instead: the trailing fragment is appended at
end-of-input exactly when the input is nonempty and does not end in a comma
(equivalently, when the clause or action under construction is dirty); an
appended trailing clause always has a subject flag set or a nonempty actions
list; when the input is empty or ends in a comma nothing is appended and the
clause count equals the comma count. -/
theorem c3_trailing_commit (m : String) (s : ChmodSymbolic)
    (h : parse m = Except.ok (ChmodMode.Symbolic s)) :
    (¬ endsNonComma m.data → s.clauses.length = m.data.count ',') ∧
    (endsNonComma m.data →
      s.clauses.length = m.data.count ',' + 1 ∧
      ∃ cl, s.clauses.getLast? = some cl ∧
        (cl.user = true ∨ cl.group = true ∨ cl.others = true ∨ cl.actions ≠ [])) := by
  obtain ⟨S, hs, hInv, rfl⟩ := parse_symbolic_elim m s h
  rcases finalize_cases S with ⟨had, hcd, hfin⟩ | ⟨had, hcd, hfin⟩ | ⟨had, hfin⟩
  · constructor
    · intro _
      rw [hfin]
      exact hInv.countComma
    · intro hend
      exfalso
      rcases hInv.dirtySeg.mpr hend with hd | hd
      · rw [had] at hd; exact nomatch hd
      · rw [hcd] at hd; exact nomatch hd
  · have hend : endsNonComma m.data := hInv.dirtySeg.mp (Or.inr hcd)
    constructor
    · intro hn
      exact absurd hend hn
    · intro _
      refine ⟨by simp [hfin, hInv.countComma], S.clause, ?_, hInv.clDirty hcd⟩
      rw [hfin]
      exact List.getLast?_concat _
  · have hend : endsNonComma m.data := hInv.dirtySeg.mp (Or.inl had)
    constructor
    · intro hn
      exact absurd hend hn
    · intro _
      refine ⟨by simp [hfin, hInv.countComma],
        { S.clause with actions := S.clause.actions ++ [S.action], dirty := true }, ?_,
        Or.inr (Or.inr (Or.inr (by simp)))⟩
      rw [hfin]
      exact List.getLast?_concat _

/-- C3 witness: instantiating the corrected statement at `"u"`. -/
theorem c3_witness :
    (⟨[⟨true, false, false, [], true⟩]⟩ : ChmodSymbolic).clauses.length =
      "u".data.count ',' + 1 ∧
    ∃ cl, (⟨[⟨true, false, false, [], true⟩]⟩ : ChmodSymbolic).clauses.getLast? =
      some cl ∧
        (cl.user = true ∨ cl.group = true ∨ cl.others = true ∨ cl.actions ≠ []) :=
  (c3_trailing_commit "u" _ rfl).2 ⟨by decide, by decide⟩

/-- C4: `parse "u=rwX,go=rX"` yields exactly two clauses: clause 1 targets
only `user` and holds one `Set` action with read, write and
execute-on-directory set (and nothing else); clause 2 targets `group` and
`others` and holds one `Set` action with read and execute-on-directory set
(and nothing else). -/
theorem c4_example :
    parse "u=rwX,go=rX" =
      Except.ok (ChmodMode.Symbolic ⟨[
        ⟨true, false, false,
          [⟨ChmodActionOp.Set, false, false, false,
            true, true, false, true, false, false, true⟩], true⟩,
        ⟨false, true, true,
          [⟨ChmodActionOp.Set, false, false, false,
            true, false, false, true, false, false, true⟩], true⟩]⟩) := rfl

/-- C5: the re-dispatch loop (the inner `while !done_with_char` loop) always
exits within 4 iterations, from any machine state on any character: fuel 4
never runs out, and adding more fuel does not change the result.  Hence the
whole scan performs at most 4 × (input length) dispatch steps and `parse`
terminates on every input. -/
theorem c5_redispatch_terminates (S : ScanSt) (c : Char) :
    (redispatch 4 S c).isSome = true ∧
    ∀ n, 4 ≤ n → redispatch n S c = redispatch 4 S c := by
  refine ⟨redispatch_four_isSome S c, ?_⟩
  intro n hn
  obtain ⟨r, hr⟩ := Option.isSome_iff_exists.mp (redispatch_four_isSome S c)
  rw [hr, redispatch_mono 4 n S c r hr hn]

/-- C5 witness: instantiating the fuel bound at fuel 9 in the initial state. -/
theorem c5_witness : redispatch 9 initSt 'u' = redispatch 4 initSt 'u' :=
  (c5_redispatch_terminates initSt 'u').2 9 (by decide)

/-- C6: when `parse` returns a symbolic result and every top-level
comma-separated segment of the input contains at least one subject or action
character, the number of committed clauses equals the number of segments. -/
theorem c6_clause_count_eq_segments (m : String) (s : ChmodSymbolic)
    (h : parse m = Except.ok (ChmodMode.Symbolic s))
    (hseg : ∀ seg ∈ segs m.data, ∃ c ∈ seg, isSubjAct c = true) :
    s.clauses.length = (segs m.data).length := by
  have hend : endsNonComma m.data := by
    constructor
    · intro hnil
      have hm : ([] : List Char) ∈ segs m.data := by
        rw [hnil]; simp [segs]
      obtain ⟨c, hc, -⟩ := hseg [] hm
      exact absurd hc (List.not_mem_nil c)
    · intro hlast
      have hsg := segs_getLast?_comma m.data hlast
      have hm : ([] : List Char) ∈ segs m.data := mem_of_getLast?Eq _ _ hsg
      obtain ⟨c, hc, -⟩ := hseg [] hm
      exact absurd hc (List.not_mem_nil c)
  have hcount := parse_symbolic_count m s h
  rw [if_pos hend] at hcount
  rw [hcount, segs_length]

/-- C6 witness: instantiating the segment count at `"u=r"`. -/
theorem c6_witness :
    (⟨[⟨true, false, false,
      [⟨ChmodActionOp.Set, false, false, false,
        true, false, false, false, false, false, true⟩], true⟩]⟩ :
      ChmodSymbolic).clauses.length = (segs "u=r".data).length :=
  c6_clause_count_eq_segments "u=r" _ rfl (by decide)

/-- C7: `parse "u+r-w"` yields one clause targeting only `user` with exactly
two actions in order: `Add` with only read set, then `Remove` with only
write set. -/
theorem c7_example :
    parse "u+r-w" =
      Except.ok (ChmodMode.Symbolic ⟨[
        ⟨true, false, false,
          [⟨ChmodActionOp.Add, false, false, false,
            true, false, false, false, false, false, true⟩,
           ⟨ChmodActionOp.Remove, false, false, false,
            false, true, false, false, false, false, true⟩], true⟩]⟩) := rfl

/-- C8: no action committed into a symbolic parse result has both a copy
flag and a literal permission flag set: the two flag families are populated
from disjoint parser states. -/
theorem c8_no_mixed_action (m : String) (s : ChmodSymbolic)
    (h : parse m = Except.ok (ChmodMode.Symbolic s)) :
    ∀ cl ∈ s.clauses, ∀ a ∈ cl.actions, ¬(hasCopy a = true ∧ hasLit a = true) := by
  obtain ⟨S, hs, hInv, rfl⟩ := parse_symbolic_elim m s h
  intro cl hcl a ha
  rcases finalize_cases S with ⟨had, hcd, hfin⟩ | ⟨had, hcd, hfin⟩ | ⟨had, hfin⟩
  · rw [hfin] at hcl
    exact (hInv.commSym cl hcl a ha).1
  · rw [hfin] at hcl
    rcases List.mem_append.mp hcl with hm | hm
    · exact (hInv.commSym cl hm a ha).1
    · obtain rfl := List.mem_singleton.mp hm
      exact (hInv.commCl a ha).1
  · rw [hfin] at hcl
    rcases List.mem_append.mp hcl with hm | hm
    · exact (hInv.commSym cl hm a ha).1
    · obtain rfl := List.mem_singleton.mp hm
      rcases List.mem_append.mp ha with hm2 | hm2
      · exact (hInv.commCl a hm2).1
      · obtain rfl := List.mem_singleton.mp hm2
        rcases hInv.boundary with hb | hb | hb | hb
        · exfalso
          rw [hInv.freshW hb] at had
          exact nomatch had
        · rintro ⟨hcp, hl⟩
          rw [(hInv.flagsLC hb).1] at hcp
          exact nomatch hcp
        · rintro ⟨hcp, hl⟩
          rw [hInv.litPC hb] at hl
          exact nomatch hl
        · rintro ⟨hcp, hl⟩
          rw [hInv.copyPL hb] at hcp
          exact nomatch hcp

/-- C8 witness: instantiating the disjointness invariant at `"g=u"`, whose
single committed action copies from user and has no literal flags. -/
theorem c8_witness :
    ¬(hasCopy ⟨ChmodActionOp.Set, true, false, false,
        false, false, false, false, false, false, true⟩ = true ∧
      hasLit ⟨ChmodActionOp.Set, true, false, false,
        false, false, false, false, false, false, true⟩ = true) :=
  c8_no_mixed_action "g=u"
    ⟨[⟨false, true, false,
      [⟨ChmodActionOp.Set, true, false, false,
        false, false, false, false, false, false, true⟩], true⟩]⟩ rfl
    ⟨false, true, false,
      [⟨ChmodActionOp.Set, true, false, false,
        false, false, false, false, false, false, true⟩], true⟩
    (List.mem_singleton.mpr rfl)
    ⟨ChmodActionOp.Set, true, false, false,
      false, false, false, false, false, false, true⟩
    (List.mem_singleton.mpr rfl)

/-- C9: parsing the empty string succeeds with a symbolic specification of
zero clauses — no error and no absolute value. -/
theorem c9_empty_input : parse "" = Except.ok (ChmodMode.Symbolic ⟨[]⟩) := rfl

/-- C10: every action committed into a symbolic parse result was opened by
an explicit operator character consumed from the input: the character
selecting its `op` field (`'+'`, `'-'` or `'='`) occurs in the input
string. -/
theorem c10_op_from_input (m : String) (s : ChmodSymbolic)
    (h : parse m = Except.ok (ChmodMode.Symbolic s)) :
    ∀ cl ∈ s.clauses, ∀ a ∈ cl.actions, opChar a.op ∈ m.data := by
  obtain ⟨S, hs, hInv, rfl⟩ := parse_symbolic_elim m s h
  intro cl hcl a ha
  rcases finalize_cases S with ⟨had, hcd, hfin⟩ | ⟨had, hcd, hfin⟩ | ⟨had, hfin⟩
  · rw [hfin] at hcl
    exact (hInv.commSym cl hcl a ha).2
  · rw [hfin] at hcl
    rcases List.mem_append.mp hcl with hm | hm
    · exact (hInv.commSym cl hm a ha).2
    · obtain rfl := List.mem_singleton.mp hm
      exact (hInv.commCl a ha).2
  · rw [hfin] at hcl
    rcases List.mem_append.mp hcl with hm | hm
    · exact (hInv.commSym cl hm a ha).2
    · obtain rfl := List.mem_singleton.mp hm
      rcases List.mem_append.mp ha with hm2 | hm2
      · exact (hInv.commCl a hm2).2
      · obtain rfl := List.mem_singleton.mp hm2
        exact hInv.opCur had

/-- C10 witness: instantiating the operator-origin invariant at `"u+r"`,
whose single committed action was opened by the `'+'` in the input. -/
theorem c10_witness :
    opChar (⟨ChmodActionOp.Add, false, false, false,
      true, false, false, false, false, false, true⟩ : ChmodAction).op ∈ "u+r".data :=
  c10_op_from_input "u+r"
    ⟨[⟨true, false, false,
      [⟨ChmodActionOp.Add, false, false, false,
        true, false, false, false, false, false, true⟩], true⟩]⟩ rfl
    ⟨true, false, false,
      [⟨ChmodActionOp.Add, false, false, false,
        true, false, false, false, false, false, true⟩], true⟩
    (List.mem_singleton.mpr rfl)
    ⟨ChmodActionOp.Add, false, false, false,
      true, false, false, false, false, false, true⟩
    (List.mem_singleton.mpr rfl)

end Modestr
